import Mathlib

/-!
Verification development for the Omnyxnet core (CES pipeline, DCDN chunk
store / FEC engine / P2P scheduler, compute sandbox).

Bytes are modelled as `Nat` (a byte value is `< 256`; machine-integer casts
are made explicit with `% 2 ^ 32` etc. where the code performs them).
Fallible Rust functions returning `Result`/panicking are modelled with
`Except`/`Option`.  External library primitives (SHA-256, the zstd codec,
the XChaCha20-Poly1305 cipher, the `reed_solomon_erasure` codec) are not
part of the repository's sources; where a claim depends on them they are
either taken as explicit function parameters or modelled from the spec,
as indicated by doc comments.
-/

namespace Omnyxnet

/-- Error type of the compute module, from `compute/types.rs` (`ComputeError`);
only the payload-carrying constructors exercised by the embedded functions
are given payloads. -/
inductive ComputeError where
  | WasmLoadError : String → ComputeError
  | WasmExecutionError : String → ComputeError
  | ResourceLimitExceeded : String → ComputeError
  | VerificationFailed : String → ComputeError
  | SerializationError : String → ComputeError
  | Timeout : Nat → ComputeError
  | Cancelled : ComputeError
  | InvalidInput : String → ComputeError
  | Internal : String → ComputeError
deriving DecidableEq, Repr

/-- Little-endian byte serialization of a `u32`, as produced by Rust's
`(x as u32).to_le_bytes()`; the `as u32` cast is the implicit `% 2 ^ 32`. -/
def u32le (n : Nat) : List Nat :=
  [n % 256, n / 256 % 256, n / 65536 % 256, n / 16777216 % 256]

/-- Value of four little-endian bytes, as computed by
`u32::from_le_bytes([a, b, c, d])`. -/
def le32 (a b c d : Nat) : Nat :=
  a + 256 * b + 65536 * c + 16777216 * d

/-- Read a `u32` from four little-endian bytes at offset `o` of `data`,
modelling `u32::from_le_bytes([data[o], data[o+1], data[o+2], data[o+3]])`.
The callers below only read at bounds-checked offsets, so the `getD`
default is never used. -/
def readU32At (data : List Nat) (o : Nat) : Nat :=
  le32 (data.getD o 0) (data.getD (o + 1) 0) (data.getD (o + 2) 0)
    (data.getD (o + 3) 0)

/-- Fuel-indexed helper for `chunksOf`; the fuel only bounds the recursion
depth (any fuel at least the list length gives the same result), keeping
the definition structurally recursive. -/
def chunksOfFuel (c : Nat) : Nat → List α → List (List α)
  | 0, _ => []
  | _, [] => []
  | fuel + 1, l => l.take c :: chunksOfFuel c fuel (l.drop c)

/-- Rust's `slice::chunks(c)`: consecutive chunks of length `c`, the last
possibly shorter.  Rust panics on `c = 0`; here `c = 0` loops the fuel out
and is never reached by the callers, which pass a positive `c`. -/
def chunksOf (c : Nat) (l : List α) : List (List α) :=
  chunksOfFuel c l.length l

/-- The chunk size chosen by `WasmSandbox::simulate_split`
(`src/rust/src/compute/sandbox.rs:215`):
`(data.len() / 4).max(65536).min(data.len())`. -/
def splitChunkSize (len : Nat) : Nat :=
  min (max (len / 4) 65536) len

/-- The split frame: `u32_le num_chunks` followed by a
`(u32_le len, bytes)` record per chunk
(`src/rust/src/compute/sandbox.rs:219-228`). -/
def splitFrame (chunks : List (List Nat)) : List Nat :=
  u32le chunks.length ++ (chunks.map (fun ch => u32le ch.length ++ ch)).flatten

/-- `WasmSandbox::simulate_split` (`src/rust/src/compute/sandbox.rs:209-232`):
empty input yields an empty output; otherwise the input is cut into chunks
of `splitChunkSize` bytes and framed. -/
def simulateSplit (data : List Nat) : Except ComputeError (List Nat) :=
  if data = [] then Except.ok []
  else Except.ok (splitFrame (chunksOf (splitChunkSize data.length) data))

/-- The loop body of `WasmSandbox::simulate_merge`
(`src/rust/src/compute/sandbox.rs:271-296`): read `count` length-prefixed
records starting at `offset`, accumulating the chunk payloads. -/
def mergeLoop (data : List Nat) : Nat → Nat → List Nat →
    Except ComputeError (List Nat)
  | 0, _offset, acc => Except.ok acc
  | count + 1, offset, acc =>
    if offset + 4 > data.length then
      Except.error (ComputeError.InvalidInput "Truncated data at chunk")
    else
      let chunkLen := readU32At data offset
      let o := offset + 4
      if o + chunkLen > data.length then
        Except.error (ComputeError.InvalidInput "Chunk extends past data end")
      else
        mergeLoop data count (o + chunkLen) (acc ++ (data.drop o).take chunkLen)

/-- `WasmSandbox::simulate_merge` (`src/rust/src/compute/sandbox.rs:260-300`):
rejects inputs shorter than 4 bytes, then reads `num_chunks`
length-prefixed records and concatenates their payloads. -/
def simulateMerge (data : List Nat) : Except ComputeError (List Nat) :=
  if data.length < 4 then
    Except.error (ComputeError.InvalidInput "Data too small for merge")
  else
    mergeLoop data (readU32At data 0) 4 []

/-- The spec's words for the default split strategy (spec §4.6):
`chunk_size = clamp(input_len / 8, min_chunk, max_chunk)`, at least 1.
Stated for comparison against `splitChunkSize`, which is what the
sandbox's split actually computes. -/
def specDefaultChunkSize (inputLen minChunk maxChunk : Nat) : Nat :=
  max (min (max (inputLen / 8) minChunk) maxChunk) 1

/-! ### Chunk store (`src/rust/src/dcdn/storage.rs`)

`ChunkStore` is embedded with sequential (single-caller) semantics: the
`DashMap` index becomes an association list with unique keys, atomics
become plain fields, and `Arc` sharing is dropped (payloads are values).
Operations that index `self.slots[i]` — a Rust panic when out of bounds —
return `Option`, with `none` modelling the panic/abort; `%` by zero
(capacity 0) is likewise an explicit `none`. -/

/-- `ChunkData` from `src/rust/src/dcdn/types.rs`: ids are `u64` values,
the timestamp is an instant in milliseconds, the signature is a 64-byte
list, payload is an opaque byte list. -/
structure ChunkData where
  id : Nat
  sequence : Nat
  timestamp : Nat
  sourcePeer : Nat
  signature : List Nat
  data : List Nat
  fecGroup : Option Nat
deriving DecidableEq, Repr

/-- `StorageStats` from `src/rust/src/dcdn/types.rs`. -/
structure StorageStats where
  sizeBytes : Nat
  chunkCount : Nat
  evictionsTotal : Nat
  hitsTotal : Nat
  missesTotal : Nat
deriving DecidableEq, Repr

/-- `ChunkStore` state (`src/rust/src/dcdn/storage.rs:11-25`). -/
structure ChunkStore where
  slots : List (Option ChunkData)
  writeHead : Nat
  index : List (Nat × Nat)
  capacity : Nat
  chunkTtl : Nat
  evictionsTotal : Nat
  hitsTotal : Nat
  missesTotal : Nat
deriving DecidableEq, Repr

/-- `DashMap::get` on the index: first matching entry. -/
def assocLookup (id : Nat) : List (Nat × Nat) → Option Nat
  | [] => none
  | (k, v) :: rest => if k = id then some v else assocLookup id rest

/-- `DashMap::remove` on the index.  Keys are unique in every reachable
index, so removing all matches coincides with removing the one entry. -/
def assocRemove (id : Nat) (l : List (Nat × Nat)) : List (Nat × Nat) :=
  l.filter (fun p => p.1 ≠ id)

/-- `DashMap::insert` on the index: the new binding replaces any old one. -/
def assocInsert (id v : Nat) (l : List (Nat × Nat)) : List (Nat × Nat) :=
  (id, v) :: assocRemove id l

/-- `ChunkStore::new` (`src/rust/src/dcdn/storage.rs:29-45`).  Note that it
is total: there is no capacity validation and no `CapacityZero` error
anywhere in the repository. -/
def ChunkStore.new (capacity chunkTtl : Nat) : ChunkStore :=
  { slots := List.replicate capacity none
    writeHead := 0
    index := []
    capacity := capacity
    chunkTtl := chunkTtl
    evictionsTotal := 0
    hitsTotal := 0
    missesTotal := 0 }

/-- First half of `ChunkStore::insert`
(`src/rust/src/dcdn/storage.rs:52-60`): re-insertion handling — remove a
stale mapping for the id and clear its slot if it still holds that id.
Returns the updated slot vector and index (`none` models the
out-of-bounds indexing panic). -/
def ChunkStore.insertDedup (s : ChunkStore) (chunk : ChunkData) :
    Option (List (Option ChunkData) × List (Nat × Nat)) :=
  match assocLookup chunk.id s.index with
  | none => some (s.slots, s.index)
  | some oldIdx =>
    if _h : oldIdx < s.slots.length then
      let idx' := assocRemove chunk.id s.index
      match s.slots.get ⟨oldIdx, _h⟩ with
      | some oldChunk =>
        if oldChunk.id = chunk.id then
          some (s.slots.set oldIdx none, idx')
        else some (s.slots, idx')
      | none => some (s.slots, idx')
    else none

/-- Second half of `ChunkStore::insert`
(`src/rust/src/dcdn/storage.rs:62-77`): pick the next ring slot, evict
its occupant if any (counting the eviction and unindexing the old id),
install the chunk and index it.  `none` models the `% 0` panic for
capacity 0 and the out-of-bounds indexing panic. -/
def ChunkStore.insertInstall (s : ChunkStore) (chunk : ChunkData)
    (slots1 : List (Option ChunkData)) (index1 : List (Nat × Nat)) :
    Option ChunkStore :=
  if _hcap : s.capacity = 0 then none
  else
    let slotIdx := s.writeHead % s.capacity
    if _h : slotIdx < slots1.length then
      match slots1.get ⟨slotIdx, _h⟩ with
      | some oldChunk =>
        some { s with
          slots := slots1.set slotIdx (some chunk)
          writeHead := s.writeHead + 1
          index := assocInsert chunk.id slotIdx
            (assocRemove oldChunk.id index1)
          evictionsTotal := s.evictionsTotal + 1 }
      | none =>
        some { s with
          slots := slots1.set slotIdx (some chunk)
          writeHead := s.writeHead + 1
          index := assocInsert chunk.id slotIdx index1 }
    else none

/-- `ChunkStore::insert` (`src/rust/src/dcdn/storage.rs:48-78`): the two
halves above in sequence.  The source always returns `Ok(())`; the new
store state is the success value, `none` a panic. -/
def ChunkStore.insertChunk (s : ChunkStore) (chunk : ChunkData) :
    Option ChunkStore :=
  match s.insertDedup chunk with
  | none => none
  | some (slots1, index1) => s.insertInstall chunk slots1 index1

/-- Insert a sequence of chunks left to right (`none` once any insert
panics). -/
def ChunkStore.insertAll (s : ChunkStore) : List ChunkData → Option ChunkStore
  | [] => some s
  | c :: rest => match s.insertChunk c with
    | none => none
    | some s' => s'.insertAll rest

/-- `ChunkStore::get` (`src/rust/src/dcdn/storage.rs:81-91`): the returned
chunk (if any) together with the store with its hit/miss counters
updated; outer `none` models the out-of-bounds panic. -/
def ChunkStore.getChunk (s : ChunkStore) (id : Nat) :
    Option (Option ChunkData × ChunkStore) :=
  match assocLookup id s.index with
  | some slotIdx =>
    if _h : slotIdx < s.slots.length then
      match s.slots.get ⟨slotIdx, _h⟩ with
      | some chunk => some (some chunk, { s with hitsTotal := s.hitsTotal + 1 })
      | none => some (none, { s with missesTotal := s.missesTotal + 1 })
    else none
  | none => some (none, { s with missesTotal := s.missesTotal + 1 })

/-- The value component of `ChunkStore::get`, counters aside: what a caller
observes for a lookup of `id`.  Panics are conflated with a miss here;
`chunkStore_runtime_infallible` shows they do not occur on well-formed
stores. -/
def ChunkStore.lookupChunk (s : ChunkStore) (id : Nat) : Option ChunkData :=
  match s.getChunk id with
  | some (v, _) => v
  | none => none

/-- `ChunkStore::remove` (`src/rust/src/dcdn/storage.rs:94-100`). -/
def ChunkStore.removeChunk (s : ChunkStore) (id : Nat) :
    Option (Option ChunkData × ChunkStore) :=
  match assocLookup id s.index with
  | some slotIdx =>
    if _h : slotIdx < s.slots.length then
      some (s.slots.get ⟨slotIdx, _h⟩,
        { s with
          index := assocRemove id s.index
          slots := s.slots.set slotIdx none })
    else none
  | none => some (none, s)

/-- The iteration of `ChunkStore::list_expired` over the index entries,
in index order; `none` models the out-of-bounds indexing panic. -/
def ChunkStore.listExpiredGo (s : ChunkStore) (now : Nat) :
    List (Nat × Nat) → Option (List Nat)
  | [] => some []
  | entry :: rest =>
    match ChunkStore.listExpiredGo s now rest with
    | none => none
    | some ids =>
      if _h : entry.2 < s.slots.length then
        match s.slots.get ⟨entry.2, _h⟩ with
        | some chunk =>
          if s.chunkTtl < now - chunk.timestamp then some (entry.1 :: ids)
          else some ids
        | none => some ids
      else none

/-- `ChunkStore::list_expired` (`src/rust/src/dcdn/storage.rs:103-118`):
ids whose chunk satisfies `now - timestamp > ttl` (Rust
`Instant::duration_since` saturates at zero, as `Nat` subtraction does). -/
def ChunkStore.listExpired (s : ChunkStore) (now : Nat) :
    Option (List Nat) :=
  s.listExpiredGo now s.index

/-- `ChunkStore::evict_expired` (`src/rust/src/dcdn/storage.rs:121-130`). -/
def ChunkStore.evictExpired (s : ChunkStore) (now : Nat) :
    Option (Nat × ChunkStore) :=
  match s.listExpired now with
  | none => none
  | some expired =>
    let rec go (st : ChunkStore) : List Nat → Option ChunkStore
      | [] => some st
      | id :: rest =>
        match st.removeChunk id with
        | none => none
        | some (_, st') => go st' rest
    match go s expired with
    | none => none
    | some s' => some (expired.length, s')

/-- The byte-size accumulation of `ChunkStore::stats` over the index
entries; `none` models the out-of-bounds indexing panic. -/
def ChunkStore.statsGo (s : ChunkStore) : List (Nat × Nat) → Option Nat
  | [] => some 0
  | entry :: rest =>
    match ChunkStore.statsGo s rest with
    | none => none
    | some n =>
      if _h : entry.2 < s.slots.length then
        match s.slots.get ⟨entry.2, _h⟩ with
        | some chunk => some (n + chunk.data.length)
        | none => some n
      else none

/-- `ChunkStore::stats` (`src/rust/src/dcdn/storage.rs:133-148`). -/
def ChunkStore.statsOf (s : ChunkStore) : Option StorageStats :=
  match s.statsGo s.index with
  | none => none
  | some size =>
    some { sizeBytes := size
           chunkCount := s.index.length
           evictionsTotal := s.evictionsTotal
           hitsTotal := s.hitsTotal
           missesTotal := s.missesTotal }

/-- Well-formedness of a store: the structural invariants every store
reachable from `ChunkStore.new` maintains — the slot vector has exactly
`capacity` entries, capacity is positive, and every index entry points
inside the slot vector. -/
def ChunkStore.WF (s : ChunkStore) : Prop :=
  s.slots.length = s.capacity ∧ 0 < s.capacity ∧
    ∀ e ∈ s.index, e.2 < s.slots.length

/-! ### P2P engine (`src/rust/src/dcdn/p2p.rs`)

The engine is embedded sequentially: the `DashMap` of peer statistics
becomes an association list with unique keys.  The score computation of
`calculate_unchoke_set` is `f32` arithmetic in the source (two
`u64 as f32` casts, products with the `f32` literals `0.7` and `0.3`, a
sum, and a product with the `f32` field `reliability_score`); it is
embedded exactly: every finite `f32` is a rational, and `roundF32` below
performs IEEE-754 binary32 round-to-nearest-ties-to-even on `ℚ`, applied
after each operation just as the hardware rounds each operation.  `ℚ` has
no NaN, so states with a NaN `reliability_score` are outside the model;
overflow saturates at `2^128`, a single value standing for `+inf` (it
compares above every representable finite value, and all overflows
compare equal, as `partial_cmp` on two infinities does).  The
`rand::random` draw in the optimistic unchoke is an explicit `randVal`
parameter, and the stable `sort_by` is modelled by a stable insertion
sort producing a descending-by-score permutation; the association-list
order stands for the arbitrary `DashMap` iteration order. -/

/-- Floor of the base-2 logarithm by fuelled halving: greatest `k` with
`2^k ≤ n` (and `0` for `n ≤ 1`); fuel `n` always suffices. -/
def log2Go : Nat → Nat → Nat
  | 0, _ => 0
  | fuel + 1, n => if n ≤ 1 then 0 else log2Go fuel (n / 2) + 1

/-- `⌊log₂ n⌋` for `n ≥ 1` (and `0` at `0`). -/
def natLog2 (n : Nat) : Nat := log2Go n n

/-- Round `m / d` (`d ≥ 1`) to the nearest natural number, ties to the
even neighbour — the IEEE-754 default rounding of a scaled significand. -/
def rnhe (m d : Nat) : Nat :=
  if 2 * (m % d) < d then m / d
  else if d < 2 * (m % d) then m / d + 1
  else m / d + m / d % 2

/-- `2^s` as a rational, for an integer exponent `s`. -/
def pow2Q (s : ℤ) : ℚ :=
  if 0 ≤ s then ((2 ^ s.toNat : ℕ) : ℚ) else ((2 ^ (-s).toNat : ℕ) : ℚ)⁻¹

/-- Decides `2^k ≤ m / n` (`n ≥ 1`) over the naturals. -/
def pow2LeRat (k : ℤ) (m n : Nat) : Bool :=
  if 0 ≤ k then decide (n * 2 ^ k.toNat ≤ m)
  else decide (n ≤ m * 2 ^ (-k).toNat)

/-- `⌊log₂ (m / n)⌋` for `m, n ≥ 1`: the bit-length difference
`k = ⌊log₂ m⌋ - ⌊log₂ n⌋` over- or exactly estimates it (`m/n` lies in
`(2^(k-1), 2^(k+1))`), so one comparison settles which. -/
def ratExp (m n : Nat) : ℤ :=
  if pow2LeRat ((natLog2 m : ℤ) - (natLog2 n : ℤ)) m n
  then (natLog2 m : ℤ) - (natLog2 n : ℤ)
  else (natLog2 m : ℤ) - (natLog2 n : ℤ) - 1

/-- The binary32 rounding scale for the positive value `m / n`: normal
numbers (`⌊log₂⌋ ≥ -126`) round at `2^(e-23)` (a 24-bit significand),
subnormals at the fixed `2^-149`. -/
def f32Scale (m n : Nat) : ℤ :=
  if -126 ≤ ratExp m n then ratExp m n - 23 else -149

/-- The significand of `m / n` rounded half-even at the binary32 scale. -/
def f32Sig (m n : Nat) : Nat :=
  if 0 ≤ f32Scale m n then rnhe m (n * 2 ^ (f32Scale m n).toNat)
  else rnhe (m * 2 ^ (-(f32Scale m n)).toNat) n

/-- IEEE-754 binary32 round-to-nearest-ties-to-even of the nonnegative
rational `m / n`, with overflow (a rounded magnitude of `2^128` or more,
exactly the IEEE overflow-to-infinity condition) saturated at `2^128`. -/
def roundF32Pos (m n : Nat) : ℚ :=
  min ((f32Sig m n : ℚ) * pow2Q (f32Scale m n)) (pow2Q 128)

/-- Binary32 rounding of a rational, sign-symmetric as IEEE rounding is.
This is the model of every single `f32` operation result in
`calculate_unchoke_set` (`src/rust/src/dcdn/p2p.rs:109-113`). -/
def roundF32 (q : ℚ) : ℚ :=
  if q.num < 0 then -(roundF32Pos q.num.natAbs q.den)
  else roundF32Pos q.num.natAbs q.den

/-- The `f32` literal `0.7` of `src/rust/src/dcdn/p2p.rs:113`, exactly:
`11744051 / 2^24` (`0.7` is not representable; this is its binary32
rounding). -/
def c07 : ℚ := 11744051 / 16777216

/-- The `f32` literal `0.3` of `src/rust/src/dcdn/p2p.rs:113`, exactly:
`5033165 / 2^24`. -/
def c03 : ℚ := 5033165 / 16777216

/-- `PeerStats` from `src/rust/src/dcdn/types.rs`, reliability as an exact
rational. -/
structure PeerStats where
  uploadedBytes : Nat
  downloadedBytes : Nat
  lastInteraction : Option Nat
  reliabilityScore : ℚ
deriving DecidableEq, Repr

/-- `PeerStats::default`: zero traffic, no interaction, reliability 1. -/
def PeerStats.default : PeerStats :=
  { uploadedBytes := 0, downloadedBytes := 0, lastInteraction := none
    reliabilityScore := 1 }

/-- `P2PConfig` from `src/rust/src/dcdn/p2p.rs:20-27`. -/
structure P2PConfig where
  maxUploadMbps : Nat
  maxDownloadMbps : Nat
  unchokeIntervalSeconds : Nat
  regularUnchokeCount : Nat
  optimisticUnchokeCount : Nat
deriving DecidableEq, Repr

/-- `P2PEngine` state (`src/rust/src/dcdn/p2p.rs:11-18`). -/
structure P2PEngine where
  peerStats : List (Nat × PeerStats)
  unchokedPeers : List Nat
  config : P2PConfig
deriving DecidableEq, Repr

/-- The tit-for-tat score of `P2PEngine::calculate_unchoke_set`
(`src/rust/src/dcdn/p2p.rs:109-113`),
`(downloaded as f32 * 0.7 + uploaded as f32 * 0.3) * reliability`, with
every `f32` operation — the two `u64 as f32` casts, the two products,
the sum, and the final product with the stored `f32`
`reliability_score` — rounded to binary32 by `roundF32`. -/
def peerScore (s : PeerStats) : ℚ :=
  roundF32 (roundF32 (roundF32 (roundF32 (s.downloadedBytes : ℚ) * c07) +
    roundF32 (roundF32 (s.uploadedBytes : ℚ) * c03)) * s.reliabilityScore)

/-- Modelled from the spec: the score formula
`score(p) = (0.7·downloaded_from(p) + 0.3·uploaded_to(p))·reliability(p)`
read as exact real arithmetic (`0.7 = 7/10`, `0.3 = 3/10`, no
floating-point rounding) — the reading under which the original C7
property is compared against the program. -/
def specScore (s : PeerStats) : ℚ :=
  ((s.downloadedBytes : ℚ) * (7 / 10) + (s.uploadedBytes : ℚ) * (3 / 10)) *
    s.reliabilityScore

/-- Stable insertion of one scored peer into a descending list: `x`
(earlier in iteration order than everything already inserted) goes before
the first element that does not strictly beat it, so equal scores keep
their relative order — the stability of Rust's `sort_by` over the list
order standing for `DashMap` iteration order. -/
def insertDesc (x : Nat × ℚ) : List (Nat × ℚ) → List (Nat × ℚ)
  | [] => [x]
  | y :: ys => if x.2 < y.2 then y :: insertDesc x ys else x :: y :: ys

/-- Stable descending-by-score sort, modelling
`peer_scores.sort_by(|a, b| b.1.partial_cmp(&a.1) ...)`
(`src/rust/src/dcdn/p2p.rs:119`). -/
def sortDesc : List (Nat × ℚ) → List (Nat × ℚ)
  | [] => []
  | x :: xs => insertDesc x (sortDesc xs)

/-- `P2PEngine::calculate_unchoke_set` (`src/rust/src/dcdn/p2p.rs:100-137`)
with the optimistic random draw passed in as `randVal`. -/
def calcUnchokeSet (e : P2PEngine) (randVal : Nat) : List Nat :=
  let peerScores := e.peerStats.map (fun q => (q.1, peerScore q.2))
  let sorted := sortDesc peerScores
  let regularCount := min e.config.regularUnchokeCount peerScores.length
  let unchoked := (sorted.take regularCount).map Prod.fst
  if regularCount < peerScores.length ∧ 0 < e.config.optimisticUnchokeCount then
    let remaining := sorted.drop regularCount
    if remaining.length = 0 then unchoked
    else unchoked ++ [(remaining.getD (randVal % remaining.length) (0, 0)).1]
  else unchoked

/-- `P2PEngine::update_unchoke_set` (`src/rust/src/dcdn/p2p.rs:90-97`):
atomically publish the freshly computed set. -/
def updateUnchokeSet (e : P2PEngine) (randVal : Nat) : P2PEngine :=
  { e with unchokedPeers := calcUnchokeSet e randVal }

/-- `P2PEngine::update_uploaded` (`src/rust/src/dcdn/p2p.rs:150-154`): adds
to the entry if present; absent peers are left untouched. -/
def updateUploaded (e : P2PEngine) (peer bytes : Nat) : P2PEngine :=
  { e with
    peerStats := e.peerStats.map (fun q =>
      if q.1 = peer then
        (q.1, { q.2 with uploadedBytes := q.2.uploadedBytes + bytes })
      else q) }

/-- `P2PEngine::update_downloaded` (`src/rust/src/dcdn/p2p.rs:157-161`). -/
def updateDownloaded (e : P2PEngine) (peer bytes : Nat) : P2PEngine :=
  { e with
    peerStats := e.peerStats.map (fun q =>
      if q.1 = peer then
        (q.1, { q.2 with downloadedBytes := q.2.downloadedBytes + bytes })
      else q) }

/-- `P2PEngine::get_peer_stats` (`src/rust/src/dcdn/p2p.rs:164-166`). -/
def getPeerStats (e : P2PEngine) (peer : Nat) : Option PeerStats
  :=
  let rec go : List (Nat × PeerStats) → Option PeerStats
    | [] => none
    | q :: rest => if q.1 = peer then some q.2 else go rest
  go e.peerStats

/-! ### FEC engine (`src/rust/src/dcdn/fec.rs`)

The engine stores groups in a `DashMap` keyed by group id; `add_packet`
and `add_parity` act on the entry of the packet's group, so a single
group's evolution is embedded as pure functions on `FecGroup`.  The
Reed–Solomon codec is the external `reed_solomon_erasure` crate, not
repository code; it is modelled from the spec below
(`rsReconstructData`). -/

/-- `Packet` from `src/rust/src/dcdn/types.rs`. -/
structure Packet where
  groupId : Nat
  index : Nat
  data : List Nat
deriving DecidableEq, Repr

/-- `ParityPacket` from `src/rust/src/dcdn/types.rs`. -/
structure ParityPacket where
  groupId : Nat
  index : Nat
  data : List Nat
deriving DecidableEq, Repr

/-- `FecGroup` (`src/rust/src/dcdn/fec.rs:32-39`). -/
structure FecGroup where
  id : Nat
  dataPackets : List (Option Packet)
  parityPackets : List ParityPacket
  receivedCount : Nat
  expectedDataCount : Nat
  expectedParityCount : Nat
deriving DecidableEq, Repr

/-- `FecGroup::new` (`src/rust/src/dcdn/fec.rs:261-270`). -/
def FecGroup.new (id dataCount parityCount : Nat) : FecGroup :=
  { id := id
    dataPackets := List.replicate dataCount none
    parityPackets := []
    receivedCount := 0
    expectedDataCount := dataCount
    expectedParityCount := parityCount }

/-- `FecEngine::add_packet` on the packet's group
(`src/rust/src/dcdn/fec.rs:216-230`): store only into an empty in-range
slot, else ignore. -/
def FecGroup.addPacket (g : FecGroup) (p : Packet) : FecGroup :=
  if _h : p.index < g.dataPackets.length then
    match g.dataPackets.get ⟨p.index, _h⟩ with
    | none =>
      { g with
        dataPackets := g.dataPackets.set p.index (some p)
        receivedCount := g.receivedCount + 1 }
    | some _ => g
  else g

/-- `FecEngine::add_parity` on the parity packet's group
(`src/rust/src/dcdn/fec.rs:233-244`): unconditional append, no index
validation of any kind. -/
def FecGroup.addParity (g : FecGroup) (par : ParityPacket) : FecGroup :=
  { g with
    parityPackets := g.parityPackets ++ [par]
    receivedCount := g.receivedCount + 1 }

/-- One `add_packet`/`add_parity` call. -/
def FecGroup.addOp (g : FecGroup) : Packet ⊕ ParityPacket → FecGroup
  | Sum.inl p => g.addPacket p
  | Sum.inr par => g.addParity par

/-- A group reached from `FecGroup.new` by a sequence of calls. -/
def FecGroup.run (g : FecGroup) : List (Packet ⊕ ParityPacket) → FecGroup
  | [] => g
  | op :: rest => (g.addOp op).run rest

/-- `FecEngine::can_recover` (`src/rust/src/dcdn/fec.rs:211-213`). -/
def FecGroup.canRecover (g : FecGroup) : Bool :=
  g.expectedDataCount ≤ g.receivedCount

/-- Rust's `Vec::resize(n, 0)`: truncate or zero-pad to length `n`. -/
def resizeZero (l : List Nat) (n : Nat) : List Nat :=
  l.take n ++ List.replicate (n - l.length) 0

/-- Bytewise XOR of two equal-length byte lists. -/
def xorBytes (a b : List Nat) : List Nat :=
  List.zipWith Nat.xor a b

/-- XOR of a list of equal-length byte lists of length `len`. -/
def xorAll (len : Nat) (ls : List (List Nat)) : List Nat :=
  ls.foldl xorBytes (List.replicate len 0)

/-- Error kinds surfaced by the FEC engine (`anyhow` messages in the
source, spec §7 names). -/
inductive FecError where
  | EmptyPacketList : FecError
  | GroupSizeInvalid : FecError
  | InsufficientPackets : FecError
  | ReconstructionFailed : FecError
  | ReconstructionIncomplete : List Nat → FecError
deriving DecidableEq, Repr

/-- Modelled from the spec: the erasure codec (§4.1) implemented by the
external `reed_solomon_erasure` crate, whose sources are not part of this
repository.  `reconstruct_data(options[0..k+m])` takes one present-or-
missing slot per shard — a vector of exactly `k + m` options (any other
length is rejected) — requires at least `k` present, and fills the
missing *data* slots only, leaving missing parity slots empty.  The
arithmetic realization here is the single-parity (XOR) instance of
GF(256) Reed–Solomon, which is complete for `m ≤ 1`; every use in this
development has `m ≤ 1`. -/
def rsReconstructData (k m : Nat) (options : List (Option (List Nat))) :
    Except FecError (List (Option (List Nat))) :=
  if options.length ≠ k + m then Except.error FecError.GroupSizeInvalid
  else if (options.countP Option.isSome) < k then
    Except.error FecError.InsufficientPackets
  else if (options.take k).all Option.isSome then Except.ok options
  else
    -- exactly one data slot missing and the parity slot present (m = 1)
    let len := ((options.filterMap id).headD []).length
    let filled := xorAll len (options.filterMap id)
    Except.ok (options.map (fun o => match o with
      | some sh => some sh
      | none => some filled))

/-- Modelled from the spec: the codec's `encode` (§4.1) — data shards fill
`[0..k)`, the zeroed parity slots `[k..k+m)` are filled in place; the
single-parity XOR instance (each parity row is the XOR of the data
rows), complete for `m ≤ 1`. -/
def rsEncode (k m : Nat) (shards : List (List Nat)) :
    Except FecError (List (List Nat)) :=
  if shards.length ≠ k + m then Except.error FecError.GroupSizeInvalid
  else
    let len := (shards.headD []).length
    let parityRow := xorAll len (shards.take k)
    Except.ok (shards.take k ++ List.replicate m parityRow)

/-- `FecEngine::decode` (`src/rust/src/dcdn/fec.rs:112-208`): build the
shard vector from the group's data slots and its *dense* parity list,
run the codec, reject any still-missing slot, and return the packets
recovered for the originally missing data slots. -/
def fecDecode (g : FecGroup) : Except FecError (List Packet) :=
  let k := g.expectedDataCount
  let m := g.expectedParityCount
  if ¬ g.canRecover then Except.error FecError.InsufficientPackets
  else
    let shardLen :=
      ((g.dataPackets.filterMap id).map (fun p => p.data.length)).foldr
        max 0
    let dataShards : List (List Nat) :=
      g.dataPackets.map (fun po => match po with
        | some p => resizeZero p.data shardLen
        | none => List.replicate shardLen 0)
    let parityShards : List (List Nat) :=
      g.parityPackets.map (fun par => resizeZero par.data shardLen)
    let shards := dataShards ++ parityShards
    let present : List Bool :=
      (g.dataPackets.map Option.isSome) ++
        ((List.range g.parityPackets.length).map (fun idx => decide (idx < m)))
    -- `shards.into_iter().zip(present.iter())`: truncates at the shorter,
    -- exactly as Rust's `zip` does.  `present` is the `vec![false; k+m]`
    -- with data/parity positions set; its prefix of length
    -- `k + parity_count` is what the zip consumes.
    let shardOptions : List (Option (List Nat)) :=
      (List.zip shards (present.take shards.length)).map
        (fun sp => if sp.2 then some sp.1 else none)
    match rsReconstructData k m shardOptions with
    | Except.error _ => Except.error FecError.ReconstructionFailed
    | Except.ok filled =>
      let missing := (filled.enum.filter (fun oi => oi.2.isNone)).map
        (fun oi => oi.1)
      if missing ≠ [] then
        Except.error (FecError.ReconstructionIncomplete missing)
      else
        let recovered := (g.dataPackets.enum.filter
          (fun pi => pi.2.isNone)).map
          (fun pi => { groupId := g.id, index := pi.1
                       data := (filled.getD pi.1 none).getD [] : Packet })
        Except.ok recovered

/-- `FecEngine::encode` (`src/rust/src/dcdn/fec.rs:51-109`): pad all
packets to the longest payload, pad missing data slots and the `m`
parity slots with zero shards, run the codec, and return the parity
rows as `ParityPacket`s carrying the first packet's group id. -/
def fecEncode (k m : Nat) (packets : List Packet) :
    Except FecError (List ParityPacket) :=
  if packets.length = 0 then Except.error FecError.EmptyPacketList
  else if k < packets.length then Except.error FecError.GroupSizeInvalid
  else
    let shardLen := (packets.map (fun p => p.data.length)).foldr max 0
    let dataShards := packets.map (fun p => resizeZero p.data shardLen) ++
      List.replicate (k - packets.length) (List.replicate shardLen 0)
    let shards := dataShards ++ List.replicate m (List.replicate shardLen 0)
    match rsEncode k m shards with
    | Except.error e => Except.error e
    | Except.ok encoded =>
      let groupId := (packets.headD ⟨0, 0, []⟩).groupId
      Except.ok ((encoded.drop k).enum.map
        (fun si => { groupId := groupId, index := si.1, data := si.2 }))

/-! ### File type detection (`src/rust/src/file_detector.rs`) -/

/-- `FileType` from `src/rust/src/file_detector.rs:7-22`. -/
inductive FileType where
  | Compressed | Image | Video | Audio | Text | Binary | Unknown
deriving DecidableEq, Repr

/-- `FileType::recommended_compression_level`
(`src/rust/src/file_detector.rs:27-37`). -/
def FileType.recommendedCompressionLevel : FileType → Int
  | .Compressed => 0
  | .Image => 1
  | .Video => 0
  | .Audio => 1
  | .Text => 9
  | .Binary => 6
  | .Unknown => 3

/-- `FileType::skip_compression` (`src/rust/src/file_detector.rs:40-42`). -/
def FileType.skipCompression : FileType → Bool
  | .Compressed => true
  | .Video => true
  | _ => false

/-- Rust `u8::is_ascii_graphic`: printable, non-space ASCII. -/
def isAsciiGraphic (b : Nat) : Bool :=
  decide (33 ≤ b ∧ b ≤ 126)

/-- Rust `u8::is_ascii_whitespace`: space, tab, LF, FF, CR. -/
def isAsciiWhitespace (b : Nat) : Bool :=
  decide (b = 32 ∨ b = 9 ∨ b = 10 ∨ b = 12 ∨ b = 13)

/-- `FileDetector::is_likely_text` (`src/rust/src/file_detector.rs:199-212`):
more than 90 % printable ASCII over a prefix of at most 512 bytes.  The
`f64` comparison `count / size > 0.9` is computed exactly as
`10 * count > 9 * size`: for denominators up to 512 the correctly rounded
quotient compares to the double nearest 0.9 exactly as the rationals do. -/
def isLikelyText (data : List Nat) : Bool :=
  let sampleSize := min data.length 512
  let sample := data.take sampleSize
  let printableCount :=
    sample.countP (fun b => isAsciiGraphic b || isAsciiWhitespace b)
  decide (9 * sampleSize < 10 * printableCount)

/-- `FileDetector::detect_from_content`
(`src/rust/src/file_detector.rs:151-196`): magic-byte dispatch in the
source's match-arm order. -/
def detectFromContent (data : List Nat) : FileType :=
  if data.length < 4 then FileType.Unknown
  else
    let b0 := data.getD 0 0
    let b1 := data.getD 1 0
    let b2 := data.getD 2 0
    let b3 := data.getD 3 0
    -- ZIP: 50 4B 03 04
    if b0 = 0x50 ∧ b1 = 0x4B ∧ b2 = 0x03 ∧ b3 = 0x04 then FileType.Compressed
    -- GZIP: 1F 8B
    else if b0 = 0x1F ∧ b1 = 0x8B then FileType.Compressed
    -- PNG: 89 50 4E 47
    else if b0 = 0x89 ∧ b1 = 0x50 ∧ b2 = 0x4E ∧ b3 = 0x47 then FileType.Image
    -- JPEG: FF D8 FF
    else if b0 = 0xFF ∧ b1 = 0xD8 ∧ b2 = 0xFF then FileType.Image
    -- GIF: 47 49 46 38
    else if b0 = 0x47 ∧ b1 = 0x49 ∧ b2 = 0x46 ∧ b3 = 0x38 then FileType.Image
    -- MP4/M4V: any first four bytes, bytes 4..8 = "ftyp"
    else if 12 ≤ data.length ∧ (data.drop 4).take 4 = [0x66, 0x74, 0x79, 0x70]
      then FileType.Video
    -- AVI: RIFF....AVI(space)
    else if b0 = 0x52 ∧ b1 = 0x49 ∧ b2 = 0x46 ∧ b3 = 0x46 ∧ 12 ≤ data.length ∧
        (data.drop 8).take 4 = [0x41, 0x56, 0x49, 0x20] then FileType.Video
    -- MP3 frame sync: FF Fx
    else if b0 = 0xFF ∧ 0xF0 ≤ b1 ∧ Nat.land b1 0xE0 = 0xE0 then FileType.Audio
    -- FLAC: 66 4C 61 43
    else if b0 = 0x66 ∧ b1 = 0x4C ∧ b2 = 0x61 ∧ b3 = 0x43 then FileType.Audio
    -- WAV: RIFF....WAVE
    else if b0 = 0x52 ∧ b1 = 0x49 ∧ b2 = 0x46 ∧ b3 = 0x46 ∧ 12 ≤ data.length ∧
        (data.drop 8).take 4 = [0x57, 0x41, 0x56, 0x45] then FileType.Audio
    -- ELF: 7F 45 4C 46
    else if b0 = 0x7F ∧ b1 = 0x45 ∧ b2 = 0x4C ∧ b3 = 0x46 then FileType.Binary
    -- Windows PE: 4D 5A
    else if b0 = 0x4D ∧ b1 = 0x5A then FileType.Binary
    else if isLikelyText data then FileType.Text
    else FileType.Unknown

/-! ### CES pipeline (`src/rust/src/ces.rs`)

The pipeline's own logic (type detection, compression policy, length
framing, shard slicing and padding, reassembly) is embedded from the
source.  The compression and AEAD primitives and the Reed–Solomon codec
are external crates; they are modelled from the spec (doc comments of
`zstdCompress`/`xchachaSeal`/`rsEncode` below), and the random nonce
is an explicit parameter. -/

/-- `CompressionAlgorithm` from `src/rust/src/types.rs`. -/
inductive CompressionAlgorithm where
  | Zstd | Brotli | NoCompression
deriving DecidableEq, Repr

/-- `CesConfig` from `src/rust/src/types.rs:152-159`. -/
structure CesConfig where
  compressionLevel : Int
  compressionAlgorithm : CompressionAlgorithm
  shardCount : Nat
  parityCount : Nat
  chunkSize : Nat
deriving DecidableEq, Repr

/-- Error kinds of the CES pipeline (`anyhow` messages in `ces.rs`,
spec §7 names). -/
inductive CesError where
  | CompressionFailed : CesError
  | CiphertextInvalid : CesError
  | DataTooShortForNonce : CesError
  | TruncatedShardSet : CesError
  | ReconstructedTooSmall : CesError
  | ShardPanic : CesError
  | CodecFailed : FecError → CesError
deriving DecidableEq, Repr

/-- The four magic bytes beginning every zstd frame (`0xFD2FB528`,
little-endian on the wire). -/
def zstdMagic : List Nat := [0x28, 0xB5, 0x2F, 0xFD]

/-- Modelled from the spec: the external zstd compressor (spec §4.2 lists
`{Zstd, Brotli, None}`; the crate is not repository code).  A compressed
stream is a zstd frame: it begins with the frame magic; the payload is
modelled losslessly as the input itself. -/
def zstdCompress (_level : Int) (data : List Nat) : List Nat :=
  zstdMagic ++ data

/-- Modelled from the spec: the external zstd decompressor.  It inverts
`zstdCompress`, and — as the real decoder does — rejects any input that
does not begin with a zstd frame magic. -/
def zstdDecompress (data : List Nat) : Except CesError (List Nat) :=
  if data.take 4 = zstdMagic then Except.ok (data.drop 4)
  else Except.error CesError.CompressionFailed

/-- Modelled from the spec: the external Brotli compressor, with the same
frame-marker modelling as zstd (a distinct marker). -/
def brotliCompress (_quality : Int) (data : List Nat) : List Nat :=
  [0x42, 0x52] ++ data

/-- Modelled from the spec: the external Brotli decompressor. -/
def brotliDecompress (data : List Nat) : Except CesError (List Nat) :=
  if data.take 2 = [0x42, 0x52] then Except.ok (data.drop 2)
  else Except.error CesError.CompressionFailed

/-- `CesPipeline::compress_with_level` (`src/rust/src/ces.rs:122-147`):
level 0 means no compression, otherwise dispatch on the configured
algorithm. -/
def compressWithLevel (cfg : CesConfig) (data : List Nat) (level : Int) :
    List Nat :=
  if level = 0 then data
  else match cfg.compressionAlgorithm with
    | CompressionAlgorithm.Zstd => zstdCompress level data
    | CompressionAlgorithm.Brotli => brotliCompress level data
    | CompressionAlgorithm.NoCompression => data

/-- `CesPipeline::decompress` (`src/rust/src/ces.rs:150-166`): always
decompresses with the configured algorithm — there is no record of
whether compression was skipped at `process` time. -/
def cesDecompress (cfg : CesConfig) (data : List Nat) :
    Except CesError (List Nat) :=
  match cfg.compressionAlgorithm with
  | CompressionAlgorithm.Zstd => zstdDecompress data
  | CompressionAlgorithm.Brotli => brotliDecompress data
  | CompressionAlgorithm.NoCompression => Except.ok data

/-- Modelled from the spec: the external XChaCha20-Poly1305 cipher
(spec §4.2: fresh 24-byte nonce, emitted ciphertext `nonce || ct_with_tag`).
Sealing appends the 16-byte Poly1305 tag; with the same key on both sides
and no tampering the keystream cancels, so the payload is modelled as the
plaintext itself with a zero tag. -/
def xchachaSeal (_key _nonce data : List Nat) : List Nat :=
  data ++ List.replicate 16 0

/-- Modelled from the spec: XChaCha20-Poly1305 opening; inverts
`xchachaSeal`, rejecting ciphertexts shorter than the tag. -/
def xchachaOpen (_key _nonce data : List Nat) : Except CesError (List Nat) :=
  if data.length < 16 then Except.error CesError.CiphertextInvalid
  else Except.ok (data.take (data.length - 16))

/-- `CesPipeline::encrypt` (`src/rust/src/ces.rs:169-186`): seal under a
fresh nonce and prepend the nonce. -/
def cesEncrypt (key nonce data : List Nat) : List Nat :=
  nonce ++ xchachaSeal key nonce data

/-- `CesPipeline::decrypt` (`src/rust/src/ces.rs:189-205`): split off the
24-byte nonce and open. -/
def cesDecrypt (key data : List Nat) : Except CesError (List Nat) :=
  if data.length < 24 then Except.error CesError.DataTooShortForNonce
  else xchachaOpen key (data.take 24) (data.drop 24)

/-- `CesPipeline::shard` (`src/rust/src/ces.rs:208-248`): cut the framed
buffer into `k` shards of `ceil(len / k)` bytes (zero-padding the tail),
append `m` zero parity shards, and run the codec's encode.  `shard_size`
is computed by `(len + k - 1) / k`, which panics for `k = 0`
(`ShardPanic` in the model; all claims have `k ≥ 1`). -/
def cesShard (cfg : CesConfig) (data : List Nat) :
    Except CesError (List (List Nat)) :=
  let k := cfg.shardCount
  let m := cfg.parityCount
  if k = 0 then Except.error CesError.ShardPanic
  else
    let shardSize := (data.length + k - 1) / k
    let dataShards := (List.range k).map (fun i =>
      resizeZero ((data.drop (i * shardSize)).take shardSize) shardSize)
    let shards := dataShards ++ List.replicate m (List.replicate shardSize 0)
    match rsEncode k m shards with
    | Except.error e => Except.error (CesError.CodecFailed e)
    | Except.ok encoded => Except.ok encoded

/-- Modelled from the spec: the codec's `reconstruct` (§4.1) as used by
`CesPipeline::reconstruct_shards` — unlike `reconstruct_data` it fills
every missing slot, parity included; the XOR single-parity instance,
complete for `m ≤ 1`. -/
def rsReconstruct (k m : Nat) (options : List (Option (List Nat))) :
    Except FecError (List (Option (List Nat))) :=
  if options.length ≠ k + m then Except.error FecError.GroupSizeInvalid
  else if (options.countP Option.isSome) < k then
    Except.error FecError.InsufficientPackets
  else
    let len := ((options.filterMap id).headD []).length
    let filled := xorAll len (options.filterMap id)
    Except.ok (options.map (fun o => match o with
      | some sh => some sh
      | none => some filled))

/-- `CesPipeline::reconstruct_shards` (`src/rust/src/ces.rs:251-267`): run
the codec's reconstruct, then concatenate the data shards. -/
def cesReconstructShards (cfg : CesConfig)
    (options : List (Option (List Nat))) : Except CesError (List Nat) :=
  match rsReconstruct cfg.shardCount cfg.parityCount options with
  | Except.error e => Except.error (CesError.CodecFailed e)
  | Except.ok filled =>
    Except.ok (((filled.take cfg.shardCount).filterMap id).flatten)

/-- `CesPipeline::process` (`src/rust/src/ces.rs:47-85`): detect the file
type, compress (unless the type says skip), encrypt under `nonce`,
prepend the 4-byte little-endian ciphertext length, and shard. -/
def cesProcess (cfg : CesConfig) (key nonce data : List Nat) :
    Except CesError (List (List Nat)) :=
  let fileType := detectFromContent data
  let compressed :=
    if fileType.skipCompression then data
    else compressWithLevel cfg data fileType.recommendedCompressionLevel
  let encrypted := cesEncrypt key nonce compressed
  let dataToShard := u32le encrypted.length ++ encrypted
  cesShard cfg dataToShard

/-- `CesPipeline::reconstruct` (`src/rust/src/ces.rs:88-114`): rebuild the
framed buffer from the shards, read the 4-byte length prefix, slice the
ciphertext, decrypt, and decompress with the configured algorithm. -/
def cesReconstruct (cfg : CesConfig) (key : List Nat)
    (shards : List (Option (List Nat))) : Except CesError (List Nat) :=
  match cesReconstructShards cfg shards with
  | Except.error e => Except.error e
  | Except.ok reconstructed =>
    if reconstructed.length < 4 then Except.error CesError.ReconstructedTooSmall
    else
      let encLen := readU32At reconstructed 0
      if reconstructed.length < 4 + encLen then
        Except.error CesError.TruncatedShardSet
      else
        let encryptedData := (reconstructed.drop 4).take encLen
        match cesDecrypt key encryptedData with
        | Except.error e => Except.error e
        | Except.ok decrypted => cesDecompress cfg decrypted

/-! ### Merkle tree (`src/rust/src/compute/verification.rs`)

The tree is built in a flat `nodes` vector, one (padded) level after
another, with `level_start` advancing by the padded size of each level;
the embedding represents the same data as the list of padded levels
(`buildLevels`), each entry being one contiguous region of `nodes`, with
the root appended last.  The SHA-256 leaf hash (`hash_data`) and string
hash (`hash_string`, applied to the concatenation `hex(left) ∥ hex(right)`)
are external primitives and are taken as function parameters `hd`/`hs`
throughout. -/

/-- The odd-level padding of `MerkleTree::build`
(`src/rust/src/compute/verification.rs:68-71`): duplicate the last hash
when the level size is odd. -/
def padLevel (l : List String) : List String :=
  if l.length % 2 = 1 then l ++ l.drop (l.length - 1) else l

/-- Pairwise combination of a (padded) level
(`src/rust/src/compute/verification.rs:77-80`): parent =
`hs (left ++ right)`. -/
def combineLevel (hs : String → String) : List String → List String
  | a :: b :: rest => hs (a ++ b) :: combineLevel hs rest
  | _ => []

/-- Fuel-indexed level construction; any fuel at least the level length
suffices (the level count is logarithmic). -/
def buildLevelsFuel (hs : String → String) : Nat → List String →
    List (List String)
  | 0, _ => []
  | fuel + 1, l =>
    if l.length ≤ 1 then []
    else padLevel l :: buildLevelsFuel hs fuel (combineLevel hs (padLevel l))

/-- The padded levels of the tree below the root, first entry the padded
leaf level: the contiguous regions of the source's `nodes` vector, in
order; `level_sizes` (minus its final `1`) is their lengths. -/
def buildLevels (hs : String → String) (l : List String) :
    List (List String) :=
  buildLevelsFuel hs l.length l

/-- Fuel-indexed root computation. -/
def rootFuel (hs : String → String) : Nat → List String → String
  | 0, l => l.headD ""
  | fuel + 1, l =>
    if l.length ≤ 1 then l.headD ""
    else rootFuel hs fuel (combineLevel hs (padLevel l))

/-- `MerkleTree::build`'s root (`src/rust/src/compute/verification.rs:89`):
the last node pushed, i.e. the result of folding levels up to size 1;
the empty tree has root `""`. -/
def merkleRoot (hd : List Nat → String) (hs : String → String)
    (chunks : List (List Nat)) : String :=
  rootFuel hs (chunks.map hd).length (chunks.map hd)

/-- The per-level proof step of `MerkleTree::get_proof`
(`src/rust/src/compute/verification.rs:131-143`): at each level below the
root push the sibling hash (when it exists in the padded level) and halve
the index.  `node_index < nodes.len()` holds automatically whenever
`sibling_index < level_size`, since each level lies whole inside
`nodes`. -/
def getProofAux : List (List String) → Nat → List String
  | [], _ => []
  | lvl :: rest, index =>
    let sibling := if index % 2 = 0 then index + 1 else index - 1
    (if sibling < lvl.length then [lvl.getD sibling ""] else []) ++
      getProofAux rest (index / 2)

/-- `MerkleTree::get_proof` (`src/rust/src/compute/verification.rs:114-147`)
for the tree built from `chunks`: out-of-range leaf indices are
rejected; the early return for an empty `level_sizes` is unreachable
after that check. -/
def getProof (hd : List Nat → String) (hs : String → String)
    (chunks : List (List Nat)) (leafIndex : Nat) :
    Except ComputeError (List String) :=
  if chunks.length ≤ leafIndex then
    Except.error (ComputeError.InvalidInput "Leaf index out of range")
  else Except.ok (getProofAux (buildLevels hs (chunks.map hd)) leafIndex)

/-- The hash-folding loop of `MerkleTree::verify_proof`
(`src/rust/src/compute/verification.rs:154-161`). -/
def verifyFold (hs : String → String) : List String → String → Nat → String
  | [], hash, _ => hash
  | sib :: rest, hash, index =>
    verifyFold hs rest
      (if index % 2 = 0 then hs (hash ++ sib) else hs (sib ++ hash))
      (index / 2)

/-- `MerkleTree::verify_proof` (`src/rust/src/compute/verification.rs:150-164`). -/
def verifyProof (hd : List Nat → String) (hs : String → String)
    (root : String) (leafData : List Nat) (leafIndex : Nat)
    (proof : List String) : Bool :=
  verifyFold hs proof (hd leafData) leafIndex == root

/-- The chunk-store state after inserting `cs` (at most capacity-many
chunks with fresh distinct ids) into `ChunkStore.new N ttl`: chunk `j`
sits in slot `j`, the write head has advanced `cs.length` times, and the
index holds `(id, slot)` pairs, most recent first. -/
def partialStore (N ttl : Nat) (cs : List ChunkData) : ChunkStore :=
  { slots := (List.range N).map (fun i => cs.get? i)
    writeHead := cs.length
    index := (cs.enum.map (fun p => (p.2.id, p.1))).reverse
    capacity := N
    chunkTtl := ttl
    evictionsTotal := 0
    hitsTotal := 0
    missesTotal := 0 }

/-- Leaf-hash instance used to witness the Merkle theorem at a concrete
tree (any function works; the theorem is hash-generic). -/
def merkleHdW : List Nat → String :=
  fun bs => (bs.map (fun n => Nat.repr n ++ ".")).foldl (fun a b => a ++ b) "L"

/-- Node-hash instance used to witness the Merkle theorem. -/
def merkleHsW : String → String :=
  fun s => "(" ++ s ++ ")"

/-!
## Theorems

Each claim of the specification is settled below; helper lemmas come
first, then one theorem per claim (with its witness or counterexample).
-/

theorem readU32At_append (pre : List Nat) (n : Nat) (rest : List Nat) :
    readU32At (pre ++ (u32le n ++ rest)) pre.length = n % 4294967296 := by
  have hget : ∀ i : Nat, i < 4 →
      (pre ++ (u32le n ++ rest)).getD (pre.length + i) 0 =
        (u32le n).getD i 0 := by
    intro i hi
    rw [List.getD_append_right _ _ _ _ (by omega), Nat.add_sub_cancel_left,
      List.getD_append _ _ _ _ (by simp [u32le]; omega)]
  unfold readU32At le32
  have h0 := hget 0 (by omega)
  have h1 := hget 1 (by omega)
  have h2 := hget 2 (by omega)
  have h3 := hget 3 (by omega)
  simp only [Nat.add_zero] at h0
  rw [h0, h1, h2, h3]
  simp only [u32le, List.getD_cons_zero, List.getD_cons_succ]
  omega

theorem chunksOfFuel_cons_eq {α : Type} (c fuel : Nat) (x : α) (xs : List α) :
    chunksOfFuel c (fuel + 1) (x :: xs) =
      (x :: xs).take c :: chunksOfFuel c fuel ((x :: xs).drop c) := rfl

theorem flatten_chunksOfFuel {α : Type} (c : Nat) (hc : 0 < c) :
    ∀ (fuel : Nat) (l : List α), l.length ≤ fuel →
      (chunksOfFuel c fuel l).flatten = l := by
  intro fuel
  induction fuel with
  | zero =>
    intro l hl
    have : l = [] := List.length_eq_zero.mp (by omega)
    subst this; rfl
  | succ fuel ih =>
    intro l hl
    cases l with
    | nil => rfl
    | cons x xs =>
      rw [chunksOfFuel_cons_eq, List.flatten_cons,
        ih _ (by simp only [List.length_drop, List.length_cons] at hl ⊢; omega)]
      exact List.take_append_drop c (x :: xs)

theorem length_le_of_mem_chunksOfFuel {α : Type} (c : Nat) :
    ∀ (fuel : Nat) (l : List α) (ch : List α),
      ch ∈ chunksOfFuel c fuel l → ch.length ≤ c := by
  intro fuel
  induction fuel with
  | zero => intro l ch h; simp [chunksOfFuel] at h
  | succ fuel ih =>
    intro l ch h
    cases l with
    | nil => simp [chunksOfFuel] at h
    | cons x xs =>
      rw [chunksOfFuel_cons_eq] at h
      rcases List.mem_cons.mp h with h | h
      · simp [h, List.length_take]
      · exact ih _ _ h

theorem ne_nil_of_mem_chunksOfFuel {α : Type} (c : Nat) (hc : 0 < c) :
    ∀ (fuel : Nat) (l : List α) (ch : List α),
      ch ∈ chunksOfFuel c fuel l → ch ≠ [] := by
  intro fuel
  induction fuel with
  | zero => intro l ch h; simp [chunksOfFuel] at h
  | succ fuel ih =>
    intro l ch h
    cases l with
    | nil => simp [chunksOfFuel] at h
    | cons x xs =>
      rw [chunksOfFuel_cons_eq] at h
      rcases List.mem_cons.mp h with h | h
      · subst h
        simp only [ne_eq, List.take_eq_nil_iff, not_or]
        constructor
        · omega
        · simp
      · exact ih _ _ h

theorem length_chunks_le_flatten {α : Type} (cl : List (List α))
    (h : ∀ ch ∈ cl, ch ≠ []) : cl.length ≤ cl.flatten.length := by
  induction cl with
  | nil => simp
  | cons ch rest ih =>
    have hch : 1 ≤ ch.length := by
      have hne := h ch (by simp)
      have : ch.length ≠ 0 := by simpa [List.length_eq_zero] using hne
      omega
    have := ih (fun x hx => h x (by simp [hx]))
    simp only [List.length_cons, List.flatten_cons, List.length_append]
    omega

theorem dropLast_chunksOfFuel {α : Type} (c : Nat) (hc : 0 < c) :
    ∀ (fuel : Nat) (l : List α), l.length ≤ fuel →
      ∀ ch ∈ (chunksOfFuel c fuel l).dropLast, ch.length = c := by
  intro fuel
  induction fuel with
  | zero => intro l hl ch h; simp [chunksOfFuel] at h
  | succ fuel ih =>
    intro l hl ch h
    cases l with
    | nil => simp [chunksOfFuel] at h
    | cons x xs =>
      rw [chunksOfFuel_cons_eq] at h
      rcases hrest : chunksOfFuel c fuel ((x :: xs).drop c) with _ | ⟨r, rs⟩
      · rw [hrest] at h; simp at h
      · rw [hrest, List.dropLast_cons_of_ne_nil (by simp)] at h
        rcases List.mem_cons.mp h with h | h
        · -- the head chunk is followed by another, so `c` does not exhaust `l`
          have hne : (x :: xs).drop c ≠ [] := by
            intro hd
            rw [hd] at hrest
            cases fuel <;> simp [chunksOfFuel] at hrest
          have hlt : c < (x :: xs).length := by
            by_contra hcon
            exact hne (List.drop_eq_nil_of_le (by omega))
          rw [h]
          simp only [List.length_take]
          omega
        · refine ih _ ?_ ch (by rw [hrest]; exact h)
          simp only [List.length_drop, List.length_cons] at hl ⊢
          omega

theorem mergeLoop_succ_eq (data : List Nat) (count offset : Nat)
    (acc : List Nat) :
    mergeLoop data (count + 1) offset acc =
      if offset + 4 > data.length then
        Except.error (ComputeError.InvalidInput "Truncated data at chunk")
      else if offset + 4 + readU32At data offset > data.length then
        Except.error (ComputeError.InvalidInput "Chunk extends past data end")
      else mergeLoop data count (offset + 4 + readU32At data offset)
        (acc ++ (data.drop (offset + 4)).take (readU32At data offset)) := rfl

theorem mergeLoop_records (chunks : List (List Nat)) :
    ∀ (pre acc : List Nat), (∀ ch ∈ chunks, ch.length < 4294967296) →
      mergeLoop (pre ++ (chunks.map (fun ch => u32le ch.length ++ ch)).flatten)
          chunks.length pre.length acc =
        Except.ok (acc ++ chunks.flatten) := by
  induction chunks with
  | nil => intro pre acc _; simp [mergeLoop]
  | cons ch rest ih =>
    intro pre acc hlen
    have hch : ch.length < 4294967296 := hlen ch (by simp)
    have hdata : pre ++ ((ch :: rest).map
        (fun ch => u32le ch.length ++ ch)).flatten =
        pre ++ (u32le ch.length ++ (ch ++
          (rest.map (fun ch => u32le ch.length ++ ch)).flatten)) := by
      simp [List.append_assoc]
    rw [List.length_cons, hdata, mergeLoop_succ_eq]
    have hread : readU32At (pre ++ (u32le ch.length ++ (ch ++
        (rest.map (fun ch => u32le ch.length ++ ch)).flatten))) pre.length =
        ch.length := by
      rw [readU32At_append]
      exact Nat.mod_eq_of_lt hch
    rw [hread]
    have hlen1 : (pre ++ (u32le ch.length ++ (ch ++
        (rest.map (fun ch => u32le ch.length ++ ch)).flatten))).length =
        pre.length + 4 + ch.length +
          ((rest.map (fun ch => u32le ch.length ++ ch)).flatten).length := by
      simp [u32le]
      omega
    rw [if_neg (by omega), if_neg (by omega)]
    have hdrop : (pre ++ (u32le ch.length ++ (ch ++
        (rest.map (fun ch => u32le ch.length ++ ch)).flatten))).drop
          (pre.length + 4) =
        ch ++ (rest.map (fun ch => u32le ch.length ++ ch)).flatten := by
      have : pre ++ (u32le ch.length ++ (ch ++
          (rest.map (fun ch => u32le ch.length ++ ch)).flatten)) =
          (pre ++ u32le ch.length) ++ (ch ++
            (rest.map (fun ch => u32le ch.length ++ ch)).flatten) := by
        simp [List.append_assoc]
      rw [this]
      have hl4 : (pre ++ u32le ch.length).length = pre.length + 4 := by
        simp [u32le]
      rw [← hl4, List.drop_left]
    rw [hdrop, List.take_left]
    have hre : pre ++ (u32le ch.length ++ (ch ++
        (rest.map (fun ch => u32le ch.length ++ ch)).flatten)) =
        (pre ++ u32le ch.length ++ ch) ++
          (rest.map (fun ch => u32le ch.length ++ ch)).flatten := by
      simp [List.append_assoc]
    have hoff : pre.length + 4 + ch.length =
        (pre ++ u32le ch.length ++ ch).length := by
      simp [u32le]
      omega
    rw [hre, hoff, ih (pre ++ u32le ch.length ++ ch) (acc ++ ch)
      (fun c hc => hlen c (by simp [hc]))]
    simp

/-- C3 (amended): `merge(split(X)) = X` for every *non-empty* byte string
`X` (of u32-framable length); the code rejects the empty string, see
`sandbox_merge_split_empty_fails`. -/
theorem sandbox_merge_split_roundtrip (data : List Nat) (h1 : data ≠ [])
    (h2 : data.length < 4294967296) :
    (simulateSplit data).bind simulateMerge = Except.ok data := by
  have hlenpos : 0 < data.length := List.length_pos.mpr h1
  set c := splitChunkSize data.length with hc_def
  have hc : 0 < c := by
    rw [hc_def]
    unfold splitChunkSize
    omega
  have hcle : c ≤ data.length := by
    rw [hc_def]; unfold splitChunkSize; omega
  set chunks := chunksOf c data with hchunks_def
  have hflat : chunks.flatten = data :=
    flatten_chunksOfFuel c hc data.length data le_rfl
  have hne : ∀ ch ∈ chunks, ch ≠ [] :=
    fun ch h => ne_nil_of_mem_chunksOfFuel c hc data.length data ch h
  have hchlen : ∀ ch ∈ chunks, ch.length < 4294967296 := by
    intro ch h
    have := length_le_of_mem_chunksOfFuel c data.length data ch h
    omega
  have hnum : chunks.length < 4294967296 := by
    have := length_chunks_le_flatten chunks hne
    rw [hflat] at this
    omega
  have hsplit : simulateSplit data = Except.ok (splitFrame chunks) := by
    unfold simulateSplit
    rw [if_neg h1]
  rw [hsplit]
  show simulateMerge (splitFrame chunks) = Except.ok data
  unfold splitFrame
  unfold simulateMerge
  rw [if_neg (by simp [u32le])]
  have hread : readU32At (u32le chunks.length ++
      (chunks.map (fun ch => u32le ch.length ++ ch)).flatten) 0 =
      chunks.length := by
    have h := readU32At_append []
      chunks.length ((chunks.map (fun ch => u32le ch.length ++ ch)).flatten)
    simp only [List.nil_append, List.length_nil] at h
    rw [h]
    exact Nat.mod_eq_of_lt hnum
  rw [hread]
  have h4 : (4 : Nat) = (u32le chunks.length).length := by simp [u32le]
  rw [h4]
  have := mergeLoop_records chunks (u32le chunks.length) [] hchlen
  rw [this, List.nil_append, hflat]

/-- C3 (counterexample): on the empty input, `split` returns an empty
frame and `merge` rejects it, so `merge(split(""))` is an error, not
`""`. -/
theorem sandbox_merge_split_empty_fails :
    (simulateSplit []).bind simulateMerge =
      Except.error (ComputeError.InvalidInput "Data too small for merge") := by
  rfl

/-- Witness for `sandbox_merge_split_roundtrip` at `X = [7, 9, 11]`. -/
theorem sandbox_merge_split_roundtrip_witness :
    (simulateSplit [7, 9, 11]).bind simulateMerge = Except.ok [7, 9, 11] :=
  sandbox_merge_split_roundtrip [7, 9, 11] (by decide) (by decide)

/-- C9 (counterexample): at input length 300000 the sandbox split picks
chunk size `min(max(300000/4, 65536), 300000) = 75000`, while the spec's
`clamp(input_len / 8, min_chunk, max_chunk)` (with the configured
defaults 64 KiB / 1 MiB) gives 65536 — the strategies differ. -/
theorem split_chunk_size_mismatch :
    splitChunkSize 300000 = 75000 ∧
    specDefaultChunkSize 300000 65536 1048576 = 65536 ∧
    splitChunkSize 300000 ≠ specDefaultChunkSize 300000 65536 1048576 := by
  decide

/-- C9 (amended): for non-empty input the sandbox split uses
`chunk_size = min(max(input_len / 4, 65536), input_len)` — not the spec's
clamp formula — the chunk size is at least 1, and every emitted chunk
except possibly the last has exactly that length. -/
theorem split_uses_quarter_clamp (data : List Nat) (h : data ≠ []) :
    0 < splitChunkSize data.length ∧
    splitChunkSize data.length =
      min (max (data.length / 4) 65536) data.length ∧
    simulateSplit data =
      Except.ok (splitFrame (chunksOf (splitChunkSize data.length) data)) ∧
    ∀ ch ∈ (chunksOf (splitChunkSize data.length) data).dropLast,
      ch.length = splitChunkSize data.length := by
  have hlenpos : 0 < data.length := List.length_pos.mpr h
  have hc : 0 < splitChunkSize data.length := by
    unfold splitChunkSize; omega
  refine ⟨hc, rfl, ?_, ?_⟩
  · unfold simulateSplit
    rw [if_neg h]
  · exact dropLast_chunksOfFuel (splitChunkSize data.length) hc
      data.length data le_rfl

/-- Witness for `split_uses_quarter_clamp` at `X = [1, 2, 3]`. -/
theorem split_uses_quarter_clamp_witness :
    0 < splitChunkSize ([1, 2, 3] : List Nat).length ∧
    splitChunkSize ([1, 2, 3] : List Nat).length =
      min (max (([1, 2, 3] : List Nat).length / 4) 65536)
        ([1, 2, 3] : List Nat).length ∧
    simulateSplit [1, 2, 3] =
      Except.ok (splitFrame
        (chunksOf (splitChunkSize ([1, 2, 3] : List Nat).length) [1, 2, 3])) ∧
    ∀ ch ∈ (chunksOf (splitChunkSize ([1, 2, 3] : List Nat).length)
        [1, 2, 3]).dropLast,
      ch.length = splitChunkSize ([1, 2, 3] : List Nat).length :=
  split_uses_quarter_clamp [1, 2, 3] (by decide)

theorem getPeerStats_go_eq_none (p : Nat) :
    ∀ l : List (Nat × PeerStats), (∀ q ∈ l, q.1 ≠ p) →
      getPeerStats.go p l = none := by
  intro l
  induction l with
  | nil => intro _; rfl
  | cons q rest ih =>
    intro h
    show (if q.1 = p then some q.2 else getPeerStats.go p rest) = none
    rw [if_neg (h q (by simp)), ih (fun r hr => h r (by simp [hr]))]

theorem map_update_absent {β : Type} (l : List (Nat × β)) (p : Nat)
    (f : Nat × β → Nat × β) (h : ∀ q ∈ l, q.1 ≠ p) :
    l.map (fun q => if q.1 = p then f q else q) = l := by
  induction l with
  | nil => rfl
  | cons q rest ih =>
    simp only [List.map_cons, if_neg (h q (by simp)),
      ih (fun r hr => h r (by simp [hr]))]

/-- C10 (confirmed): for a peer id absent from the stats map, both byte
counters updates are exact no-ops (no entry created, no other entry
touched — the whole engine state is unchanged) and `get_peer_stats`
still returns `None`. -/
theorem p2p_update_absent_peer_noop (e : P2PEngine) (p n : Nat)
    (h : ∀ q ∈ e.peerStats, q.1 ≠ p) :
    updateUploaded e p n = e ∧ updateDownloaded e p n = e ∧
      getPeerStats e p = none := by
  refine ⟨?_, ?_, ?_⟩
  · unfold updateUploaded
    rw [map_update_absent e.peerStats p _ h]
  · unfold updateDownloaded
    rw [map_update_absent e.peerStats p _ h]
  · unfold getPeerStats
    exact getPeerStats_go_eq_none p e.peerStats h

/-- Witness for `p2p_update_absent_peer_noop`: a one-peer engine and an
unknown peer id 2. -/
theorem p2p_update_absent_peer_noop_witness :
    updateUploaded
      ⟨[(1, ⟨10, 20, none, 1⟩)], [], ⟨50, 100, 10, 4, 1⟩⟩ 2 77 =
      ⟨[(1, ⟨10, 20, none, 1⟩)], [], ⟨50, 100, 10, 4, 1⟩⟩ ∧
    updateDownloaded
      ⟨[(1, ⟨10, 20, none, 1⟩)], [], ⟨50, 100, 10, 4, 1⟩⟩ 2 77 =
      ⟨[(1, ⟨10, 20, none, 1⟩)], [], ⟨50, 100, 10, 4, 1⟩⟩ ∧
    getPeerStats ⟨[(1, ⟨10, 20, none, 1⟩)], [], ⟨50, 100, 10, 4, 1⟩⟩ 2 =
      none :=
  p2p_update_absent_peer_noop
    ⟨[(1, ⟨10, 20, none, 1⟩)], [], ⟨50, 100, 10, 4, 1⟩⟩ 2 77 (by decide)

/-- C8 (counterexample): `add_parity` performs no index validation: two
parity packets with the same index 5 — outside `[0, m)` for `m = 1` — are
both stored in a reachable group, so parity indices in a group are
neither unique nor range-checked. -/
theorem fec_parity_index_unchecked :
    (((FecGroup.new 1 2 1).run [Sum.inr ⟨1, 5, [0]⟩, Sum.inr ⟨1, 5, [0]⟩]
      ).parityPackets.map ParityPacket.index = [5, 5]) ∧
    ¬ ((((FecGroup.new 1 2 1).run
        [Sum.inr ⟨1, 5, [0]⟩, Sum.inr ⟨1, 5, [0]⟩]).parityPackets.map
          ParityPacket.index).Nodup ∧
      ∀ i ∈ ((FecGroup.new 1 2 1).run
        [Sum.inr ⟨1, 5, [0]⟩, Sum.inr ⟨1, 5, [0]⟩]).parityPackets.map
          ParityPacket.index,
        i < ((FecGroup.new 1 2 1).run
          [Sum.inr ⟨1, 5, [0]⟩, Sum.inr ⟨1, 5, [0]⟩]).expectedParityCount) := by
  decide

/-- The data-slot invariant: slot `i` holds a packet of index `i`. -/
def FecGroup.SlotInv (k : Nat) (g : FecGroup) : Prop :=
  g.dataPackets.length = k ∧
    ∀ (i : Nat) (hi : i < g.dataPackets.length) (p : Packet),
      g.dataPackets.get ⟨i, hi⟩ = some p → p.index = i

theorem fecGroup_slotInv_new (gid k m : Nat) :
    (FecGroup.new gid k m).SlotInv k := by
  constructor
  · simp [FecGroup.new]
  · intro i hi p hp
    simp [FecGroup.new] at hp

theorem fecGroup_slotInv_addOp (k : Nat) (g : FecGroup)
    (h : g.SlotInv k) (op : Packet ⊕ ParityPacket) :
    (g.addOp op).SlotInv k := by
  rcases op with p | par
  · show (g.addPacket p).SlotInv k
    unfold FecGroup.addPacket
    split
    case isTrue hlt =>
      rcases hslot : g.dataPackets.get ⟨p.index, hlt⟩ with _ | q
      · refine ⟨by simpa using h.1, ?_⟩
        intro i hi q hq
        simp only [List.length_set] at hi
        have hq' : (g.dataPackets.set p.index (some p))[i] = some q := hq
        rcases eq_or_ne p.index i with heq | hne
        · subst heq
          rw [List.getElem_set_self (by simpa using hi)] at hq'
          cases hq'
          rfl
        · rw [List.getElem_set_ne hne] at hq'
          exact h.2 i hi q hq'
      · exact h
    case isFalse => exact h
  · exact h

theorem fecGroup_slotInv_run (gid k m : Nat)
    (ops : List (Packet ⊕ ParityPacket)) :
    ((FecGroup.new gid k m).run ops).SlotInv k := by
  have hgen : ∀ (ops : List (Packet ⊕ ParityPacket)) (g : FecGroup),
      g.SlotInv k → (g.run ops).SlotInv k := by
    intro ops
    induction ops with
    | nil => intro g hg; exact hg
    | cons op rest ih =>
      intro g hg
      exact ih (g.addOp op) (fecGroup_slotInv_addOp k g hg op)
  exact hgen ops _ (fecGroup_slotInv_new gid k m)

theorem slots_filterMap_index_nodup :
    ∀ (l : List (Option Packet)) (base : Nat),
      (∀ (i : Nat) (hi : i < l.length) (p : Packet),
        l.get ⟨i, hi⟩ = some p → p.index = base + i) →
      (((l.filterMap id).map Packet.index).Nodup ∧
        ∀ p ∈ l.filterMap id, base ≤ p.index) := by
  intro l
  induction l with
  | nil => intro base _; constructor <;> simp
  | cons o rest ih =>
    intro base h
    have hrest := ih (base + 1) (by
      intro i hi p hp
      have := h (i + 1) (by simpa using Nat.succ_lt_succ hi) p hp
      omega)
    cases o with
    | none =>
      have hstep : (none :: rest).filterMap (id (α := Option Packet)) =
          rest.filterMap id := rfl
      rw [hstep]
      refine ⟨hrest.1, ?_⟩
      intro p hp
      have := hrest.2 p hp
      omega
    | some q =>
      have hq : q.index = base := by
        have := h 0 (by simp) q (by simp [List.get])
        omega
      have hstep : (some q :: rest).filterMap (id (α := Option Packet)) =
          q :: rest.filterMap id := rfl
      rw [hstep]
      constructor
      · simp only [List.map_cons, List.nodup_cons]
        refine ⟨?_, hrest.1⟩
        intro hmem
        rcases List.mem_map.mp hmem with ⟨r, hr, hri⟩
        have := hrest.2 r hr
        omega
      · intro p hp
        rcases List.mem_cons.mp hp with hp | hp
        · subst hp; omega
        · have := hrest.2 p hp
          omega

/-- C8 (amended): in every reachable FEC group the *data* side of the
claim holds — slot `i` holds only a packet of index `i` (so stored data
indices are unique and lie in `[0, k)`), and a data packet whose slot is
already occupied is ignored entirely (first writer wins, received count
included); the *parity* side does not: `add_parity` appends
unconditionally (see `fec_parity_index_unchecked`). -/
theorem fec_data_slot_invariants (gid k m : Nat)
    (ops : List (Packet ⊕ ParityPacket)) :
    (((FecGroup.new gid k m).run ops).dataPackets.length = k) ∧
    (∀ (i : Nat)
      (hi : i < ((FecGroup.new gid k m).run ops).dataPackets.length)
      (p : Packet),
      ((FecGroup.new gid k m).run ops).dataPackets.get ⟨i, hi⟩ = some p →
        p.index = i) ∧
    (((((FecGroup.new gid k m).run ops).dataPackets.filterMap id).map
      Packet.index).Nodup) ∧
    (∀ p ∈ ((FecGroup.new gid k m).run ops).dataPackets.filterMap id,
      p.index < k) ∧
    (∀ (g : FecGroup) (p : Packet),
      (g.dataPackets.getD p.index none).isSome = true → g.addPacket p = g) := by
  have hinv := fecGroup_slotInv_run gid k m ops
  have hnodup := slots_filterMap_index_nodup
    ((FecGroup.new gid k m).run ops).dataPackets 0
    (by intro i hi p hp; simpa using hinv.2 i hi p hp)
  refine ⟨hinv.1, hinv.2, hnodup.1, ?_, ?_⟩
  · intro p hp
    rcases List.mem_filterMap.mp hp with ⟨o, ho, hop⟩
    cases o with
    | none => simp at hop
    | some q =>
      simp only [id] at hop
      cases hop
      rcases List.mem_iff_get.mp ho with ⟨⟨i, hi⟩, hgi⟩
      have hidx := hinv.2 i hi p hgi
      have hlen := hinv.1
      omega
  · intro g p hsome
    unfold FecGroup.addPacket
    split
    case isTrue hlt =>
      have : g.dataPackets.getD p.index none =
          g.dataPackets.get ⟨p.index, hlt⟩ := List.getD_eq_getElem _ _ hlt
      rw [this] at hsome
      rcases hslot : g.dataPackets.get ⟨p.index, hlt⟩ with _ | q
      · rw [hslot] at hsome; simp at hsome
      · rfl
    case isFalse hge =>
      rfl

/-- Witness for `fec_data_slot_invariants`: a concrete group with slot 0
occupied ignores a duplicate data packet for index 0. -/
theorem fec_data_slot_invariants_witness :
    ((FecGroup.new 1 2 1).run [Sum.inl ⟨1, 0, [9]⟩]).dataPackets.length = 2 ∧
    FecGroup.addPacket ⟨1, [some ⟨1, 0, [9]⟩, none], [], 1, 2, 1⟩
        ⟨1, 0, [5]⟩ =
      ⟨1, [some ⟨1, 0, [9]⟩, none], [], 1, 2, 1⟩ :=
  ⟨(fec_data_slot_invariants 1 2 1 [Sum.inl ⟨1, 0, [9]⟩]).1,
    (fec_data_slot_invariants 1 2 1 [Sum.inl ⟨1, 0, [9]⟩]).2.2.2.2
      ⟨1, [some ⟨1, 0, [9]⟩, none], [], 1, 2, 1⟩ ⟨1, 0, [5]⟩ (by decide)⟩

/-- C1 (code bug): the CES round trip fails on any input whose detected
type skips compression.  `process` stores such inputs uncompressed (and
records nothing about it), while `reconstruct` unconditionally
decompresses with the configured algorithm; for the 4-byte ZIP-magic
input under the default Zstd algorithm (shown here with the default
`k = 8, m = 4` and all shards present), `reconstruct(process(X))` is a
decompression error, not `X`. -/
theorem ces_skip_compression_breaks_roundtrip :
    detectFromContent [0x50, 0x4B, 0x03, 0x04] = FileType.Compressed ∧
    FileType.skipCompression FileType.Compressed = true ∧
    (cesProcess ⟨3, CompressionAlgorithm.Zstd, 8, 4, 1048576⟩
        (List.replicate 32 0) (List.replicate 24 0)
        [0x50, 0x4B, 0x03, 0x04]).bind
      (fun shards =>
        cesReconstruct ⟨3, CompressionAlgorithm.Zstd, 8, 4, 1048576⟩
          (List.replicate 32 0) (shards.map some)) =
    Except.error CesError.CompressionFailed := ⟨rfl, rfl, rfl⟩

/-- C2 (code bug): dropping a *parity* packet defeats `decode`.  With
`k = 2, m = 1`, encode produces one parity packet; drop it (a legal
"any m packets" choice — both data packets survive, `received = 2 ≥ k`).
`decode` builds its shard vector from the dense surviving-parity list,
handing the codec `k + 0 = 2` slots instead of `k + m = 3`, and fails —
where the claim requires success. -/
theorem fec_decode_fails_after_parity_loss :
    (fecEncode 2 1 [⟨1, 0, [1]⟩, ⟨1, 1, [2]⟩]) = Except.ok [⟨1, 0, [3]⟩] ∧
    FecGroup.canRecover (((FecGroup.new 1 2 1).addPacket ⟨1, 0, [1]⟩
      ).addPacket ⟨1, 1, [2]⟩) = true ∧
    fecDecode (((FecGroup.new 1 2 1).addPacket ⟨1, 0, [1]⟩).addPacket
      ⟨1, 1, [2]⟩) = Except.error FecError.ReconstructionFailed :=
  ⟨rfl, rfl, rfl⟩

theorem assocLookup_mem :
    ∀ (l : List (Nat × Nat)) (id v : Nat), assocLookup id l = some v →
      (id, v) ∈ l := by
  intro l
  induction l with
  | nil => intro id v h; simp [assocLookup] at h
  | cons e rest ih =>
    intro id v h
    rcases e with ⟨k, w⟩
    by_cases hk : k = id
    · subst hk
      rw [show assocLookup k ((k, w) :: rest) = some w by
        simp [assocLookup]] at h
      cases h
      simp
    · rw [show assocLookup id ((k, w) :: rest) = assocLookup id rest by
        simp [assocLookup, hk]] at h
      exact List.mem_cons_of_mem _ (ih id v h)

theorem mem_assocRemove {e : Nat × Nat} {id : Nat} {l : List (Nat × Nat)}
    (h : e ∈ assocRemove id l) : e ∈ l :=
  List.mem_of_mem_filter h

theorem insertInstall_total (s : ChunkStore) (c : ChunkData)
    (slots1 : List (Option ChunkData)) (index1 : List (Nat × Nat))
    (hlen : s.slots.length = s.capacity) (hpos : 0 < s.capacity)
    (hidx : ∀ e ∈ s.index, e.2 < s.slots.length)
    (hslen : slots1.length = s.slots.length)
    (hisub : ∀ e ∈ index1, e ∈ s.index) :
    ∃ s', s.insertInstall c slots1 index1 = some s' ∧ s'.WF := by
  unfold ChunkStore.insertInstall
  rw [dif_neg (by omega)]
  have hslot : s.writeHead % s.capacity < slots1.length := by
    rw [hslen, hlen]
    exact Nat.mod_lt _ hpos
  rw [dif_pos hslot]
  have hwfpair : ∀ idx2 : List (Nat × Nat), (∀ e ∈ idx2, e ∈ index1) →
      ∀ ev : Nat, ChunkStore.WF { s with
        slots := slots1.set (s.writeHead % s.capacity) (some c)
        writeHead := s.writeHead + 1
        index := assocInsert c.id (s.writeHead % s.capacity) idx2
        evictionsTotal := ev } := by
    intro idx2 hsub ev
    refine ⟨by simpa using hslen.trans hlen, hpos, ?_⟩
    intro e he
    rcases List.mem_cons.mp he with he | he
    · subst he
      simpa using hslot
    · have := hidx e (hisub e (hsub e (mem_assocRemove he)))
      simp only [List.length_set]
      simpa [hslen] using this
  rcases hget : slots1.get ⟨s.writeHead % s.capacity, hslot⟩ with _ | old
  · exact ⟨_, rfl, by
      have := hwfpair index1 (fun e he => he) s.evictionsTotal
      exact this⟩
  · exact ⟨_, rfl,
      hwfpair (assocRemove old.id index1) (fun e he => mem_assocRemove he)
        (s.evictionsTotal + 1)⟩

theorem insertChunk_total (s : ChunkStore) (hwf : s.WF) (c : ChunkData) :
    ∃ s', s.insertChunk c = some s' ∧ s'.WF := by
  obtain ⟨hlen, hpos, hidx⟩ := hwf
  unfold ChunkStore.insertChunk ChunkStore.insertDedup
  rcases hlook : assocLookup c.id s.index with _ | oldIdx
  · exact insertInstall_total s c s.slots s.index hlen hpos hidx rfl
      (fun e he => he)
  · have hold : oldIdx < s.slots.length :=
      hidx (c.id, oldIdx) (assocLookup_mem _ _ _ hlook)
    show ∃ s',
      (match
          (if _h : oldIdx < s.slots.length then
            let idx' := assocRemove c.id s.index
            match s.slots.get ⟨oldIdx, _h⟩ with
            | some oldChunk =>
              if oldChunk.id = c.id then
                some (s.slots.set oldIdx none, idx')
              else some (s.slots, idx')
            | none => some (s.slots, idx')
          else none) with
        | none => none
        | some (slots1, index1) => s.insertInstall c slots1 index1) =
        some s' ∧ s'.WF
    rw [dif_pos hold]
    dsimp only
    rcases hg : s.slots.get ⟨oldIdx, hold⟩ with _ | oldc
    · exact insertInstall_total s c s.slots (assocRemove c.id s.index)
        hlen hpos hidx rfl (fun e he => mem_assocRemove he)
    · show ∃ s',
        (match
            (if oldc.id = c.id then
              some (s.slots.set oldIdx none, assocRemove c.id s.index)
            else some (s.slots, assocRemove c.id s.index)) with
          | none => none
          | some (slots1, index1) => s.insertInstall c slots1 index1) =
          some s' ∧ s'.WF
      by_cases hsame : oldc.id = c.id
      · rw [if_pos hsame]
        exact insertInstall_total s c (s.slots.set oldIdx none)
          (assocRemove c.id s.index) hlen hpos hidx (by simp)
          (fun e he => mem_assocRemove he)
      · rw [if_neg hsame]
        exact insertInstall_total s c s.slots (assocRemove c.id s.index)
          hlen hpos hidx rfl (fun e he => mem_assocRemove he)

theorem getChunk_total (s : ChunkStore) (hwf : s.WF) (id : Nat) :
    ∃ v s', s.getChunk id = some (v, s') ∧ s'.WF := by
  obtain ⟨hlen, hpos, hidx⟩ := hwf
  unfold ChunkStore.getChunk
  rcases hlook : assocLookup id s.index with _ | idx
  · exact ⟨none, _, rfl, hlen, hpos, hidx⟩
  · have hi : idx < s.slots.length :=
      hidx (id, idx) (assocLookup_mem _ _ _ hlook)
    show ∃ v s', (if _h : idx < s.slots.length then
        match s.slots.get ⟨idx, _h⟩ with
        | some chunk => some (some chunk, { s with hitsTotal := s.hitsTotal + 1 })
        | none => some (none, { s with missesTotal := s.missesTotal + 1 })
      else none) = some (v, s') ∧ s'.WF
    rw [dif_pos hi]
    rcases hg : s.slots.get ⟨idx, hi⟩ with _ | chunk
    · exact ⟨none, _, rfl, hlen, hpos, hidx⟩
    · exact ⟨some chunk, _, rfl, hlen, hpos, hidx⟩

theorem removeChunk_total (s : ChunkStore) (hwf : s.WF) (id : Nat) :
    ∃ v s', s.removeChunk id = some (v, s') ∧ s'.WF := by
  obtain ⟨hlen, hpos, hidx⟩ := hwf
  unfold ChunkStore.removeChunk
  rcases hlook : assocLookup id s.index with _ | idx
  · exact ⟨none, s, rfl, hlen, hpos, hidx⟩
  · have hi : idx < s.slots.length :=
      hidx (id, idx) (assocLookup_mem _ _ _ hlook)
    show ∃ v s', (if _h : idx < s.slots.length then
        some (s.slots.get ⟨idx, _h⟩,
          { s with
            index := assocRemove id s.index
            slots := s.slots.set idx none })
      else none) = some (v, s') ∧ s'.WF
    rw [dif_pos hi]
    refine ⟨_, _, rfl, by simpa using hlen, hpos, ?_⟩
    intro e he
    have := hidx e (mem_assocRemove he)
    simpa using this

theorem listExpiredGo_total (s : ChunkStore) (now : Nat) :
    ∀ l : List (Nat × Nat), (∀ e ∈ l, e.2 < s.slots.length) →
      ∃ ids, s.listExpiredGo now l = some ids := by
  intro l
  induction l with
  | nil => intro _; exact ⟨[], rfl⟩
  | cons e rest ih =>
    intro h
    rcases ih (fun x hx => h x (by simp [hx])) with ⟨ids, hids⟩
    have he : e.2 < s.slots.length := h e (by simp)
    show ∃ ids', (match s.listExpiredGo now rest with
      | none => none
      | some ids =>
        if _h : e.2 < s.slots.length then
          match s.slots.get ⟨e.2, _h⟩ with
          | some chunk =>
            if s.chunkTtl < now - chunk.timestamp then some (e.1 :: ids)
            else some ids
          | none => some ids
        else none) = some ids'
    rw [hids]
    show ∃ ids', (if _h : e.2 < s.slots.length then
        match s.slots.get ⟨e.2, _h⟩ with
        | some chunk =>
          if s.chunkTtl < now - chunk.timestamp then some (e.1 :: ids)
          else some ids
        | none => some ids
      else none) = some ids'
    rw [dif_pos he]
    rcases hg : s.slots.get ⟨e.2, he⟩ with _ | chunk
    · exact ⟨ids, rfl⟩
    · show ∃ ids', (if s.chunkTtl < now - chunk.timestamp then
          some (e.1 :: ids) else some ids) = some ids'
      by_cases hexp : s.chunkTtl < now - chunk.timestamp
      · rw [if_pos hexp]
        exact ⟨e.1 :: ids, rfl⟩
      · rw [if_neg hexp]
        exact ⟨ids, rfl⟩

theorem statsGo_total (s : ChunkStore) :
    ∀ l : List (Nat × Nat), (∀ e ∈ l, e.2 < s.slots.length) →
      ∃ n, s.statsGo l = some n := by
  intro l
  induction l with
  | nil => intro _; exact ⟨0, rfl⟩
  | cons e rest ih =>
    intro h
    rcases ih (fun x hx => h x (by simp [hx])) with ⟨n, hn⟩
    have he : e.2 < s.slots.length := h e (by simp)
    show ∃ n', (match s.statsGo rest with
      | none => none
      | some n =>
        if _h : e.2 < s.slots.length then
          match s.slots.get ⟨e.2, _h⟩ with
          | some chunk => some (n + chunk.data.length)
          | none => some n
        else none) = some n'
    rw [hn]
    show ∃ n', (if _h : e.2 < s.slots.length then
        match s.slots.get ⟨e.2, _h⟩ with
        | some chunk => some (n + chunk.data.length)
        | none => some n
      else none) = some n'
    rw [dif_pos he]
    rcases hg : s.slots.get ⟨e.2, he⟩ with _ | chunk
    · exact ⟨n, rfl⟩
    · exact ⟨n + chunk.data.length, rfl⟩

theorem evictExpiredGo_total (st : ChunkStore) (hwf : st.WF)
    (ids : List Nat) :
    ∃ st', ChunkStore.evictExpired.go st ids = some st' ∧ st'.WF := by
  induction ids generalizing st hwf with
  | nil => exact ⟨st, rfl, hwf⟩
  | cons id rest ih =>
    rcases removeChunk_total st hwf id with ⟨v, st1, hrem, hwf1⟩
    show ∃ st', (match st.removeChunk id with
      | none => none
      | some (_, st') => ChunkStore.evictExpired.go st' rest) =
        some st' ∧ st'.WF
    rw [hrem]
    exact ih st1 hwf1

/-- C6 (counterexample): constructing a store with zero slots does *not*
fail — `ChunkStore::new` is total and no `CapacityZero` error exists
anywhere in the repository; the zero-capacity store is built, and the
first `insert` then aborts (`% 0`) instead of surfacing an error. -/
theorem chunk_store_capacity_zero_constructs :
    (ChunkStore.new 0 60).capacity = 0 ∧
    (ChunkStore.new 0 60).slots = [] ∧
    (ChunkStore.new 0 60).insertChunk ⟨1, 0, 0, 1, [], [1], none⟩ = none := by
  refine ⟨rfl, rfl, rfl⟩

/-- C6 (amended): construction never fails (there is no `CapacityZero`);
a capacity-0 store makes `insert` abort; on every well-formed store with
capacity ≥ 1 — and `new` yields one for every such capacity — all runtime
operations are infallible: `insert` (eviction included) always produces a
new well-formed store, and `get`, `remove`, `list_expired`,
`evict_expired` and `stats` always produce values. -/
theorem chunk_store_runtime_infallible (s : ChunkStore) (hwf : s.WF) :
    (∀ N ttl : Nat, 0 < N → (ChunkStore.new N ttl).WF) ∧
    (∀ c : ChunkData, ∃ s', s.insertChunk c = some s' ∧ s'.WF) ∧
    (∀ id : Nat, ∃ v s', s.getChunk id = some (v, s') ∧ s'.WF) ∧
    (∀ id : Nat, ∃ v s', s.removeChunk id = some (v, s') ∧ s'.WF) ∧
    (∀ now : Nat, ∃ ids, s.listExpired now = some ids) ∧
    (∀ now : Nat, ∃ n s', s.evictExpired now = some (n, s')) ∧
    (∃ st, s.statsOf = some st) := by
  refine ⟨?_, insertChunk_total s hwf, getChunk_total s hwf,
    removeChunk_total s hwf, ?_, ?_, ?_⟩
  · intro N ttl hN
    refine ⟨by simp [ChunkStore.new], by simpa [ChunkStore.new] using hN, ?_⟩
    intro e he
    simp [ChunkStore.new] at he
  · intro now
    exact listExpiredGo_total s now s.index hwf.2.2
  · intro now
    rcases listExpiredGo_total s now s.index hwf.2.2 with ⟨ids, hids⟩
    unfold ChunkStore.evictExpired
    rw [show s.listExpired now = some ids from hids]
    rcases evictExpiredGo_total s hwf ids with ⟨st, hst, _⟩
    show ∃ n s', (match ChunkStore.evictExpired.go s ids with
      | none => none
      | some s' => some (ids.length, s')) = some (n, s')
    rw [hst]
    exact ⟨ids.length, st, rfl⟩
  · rcases statsGo_total s s.index hwf.2.2 with ⟨n, hn⟩
    unfold ChunkStore.statsOf
    rw [hn]
    exact ⟨_, rfl⟩

/-- Witness for `chunk_store_runtime_infallible` on a fresh capacity-2
store. -/
theorem chunk_store_runtime_infallible_witness :
    (∃ s', (ChunkStore.new 2 60).insertChunk ⟨1, 0, 0, 1, [], [1], none⟩ =
      some s' ∧ s'.WF) ∧
    (∃ st, (ChunkStore.new 2 60).statsOf = some st) :=
  ⟨(chunk_store_runtime_infallible (ChunkStore.new 2 60)
      ⟨by decide, by decide, by decide⟩).2.1 ⟨1, 0, 0, 1, [], [1], none⟩,
    (chunk_store_runtime_infallible (ChunkStore.new 2 60)
      ⟨by decide, by decide, by decide⟩).2.2.2.2.2.2⟩

theorem insertDesc_perm (x : Nat × ℚ) (l : List (Nat × ℚ)) :
    (insertDesc x l).Perm (x :: l) := by
  induction l with
  | nil => exact List.Perm.refl _
  | cons y ys ih =>
    show (if x.2 < y.2 then y :: insertDesc x ys else x :: y :: ys).Perm _
    by_cases h : x.2 < y.2
    · rw [if_pos h]
      exact ((ih.cons y).trans (List.Perm.swap x y ys)).symm.symm
    · rw [if_neg h]

theorem sortDesc_perm (l : List (Nat × ℚ)) : (sortDesc l).Perm l := by
  induction l with
  | nil => exact List.Perm.refl _
  | cons x xs ih =>
    exact (insertDesc_perm x (sortDesc xs)).trans (ih.cons x)

theorem insertDesc_pairwise (x : Nat × ℚ) (l : List (Nat × ℚ))
    (h : l.Pairwise (fun a b => b.2 ≤ a.2)) :
    (insertDesc x l).Pairwise (fun a b => b.2 ≤ a.2) := by
  induction l with
  | nil => simp [insertDesc]
  | cons y ys ih =>
    show (if x.2 < y.2 then y :: insertDesc x ys else x :: y :: ys).Pairwise _
    rcases List.pairwise_cons.mp h with ⟨hy, hys⟩
    by_cases hc : x.2 < y.2
    · rw [if_pos hc]
      refine List.pairwise_cons.mpr ⟨?_, ih hys⟩
      intro b hb
      have hb' : b ∈ x :: ys := (insertDesc_perm x ys).mem_iff.mp hb
      rcases List.mem_cons.mp hb' with hb' | hb'
      · subst hb'
        exact le_of_lt hc
      · exact hy b hb'
    · rw [if_neg hc]
      refine List.pairwise_cons.mpr ⟨?_, h⟩
      intro b hb
      rcases List.mem_cons.mp hb with hb | hb
      · subst hb; exact le_of_not_lt hc
      · exact le_trans (hy b hb) (le_of_not_lt hc)

theorem sortDesc_pairwise (l : List (Nat × ℚ)) :
    (sortDesc l).Pairwise (fun a b => b.2 ≤ a.2) := by
  induction l with
  | nil => simp [sortDesc]
  | cons x xs ih => exact insertDesc_pairwise x (sortDesc xs) ih



theorem mem_take_sortDesc (ps : List (Nat × ℚ)) (R : Nat) (x : Nat × ℚ)
    (hnodup : (ps.map Prod.snd).Nodup) (hx : x ∈ ps)
    (hcount : ps.countP (fun r => decide (x.2 < r.2)) < R) :
    x.1 ∈ ((sortDesc ps).take (min R ps.length)).map Prod.fst := by
  have hperm := sortDesc_perm ps
  have hsortlen : (sortDesc ps).length = ps.length := hperm.length_eq
  have htake : (sortDesc ps).take (min R ps.length) =
      (sortDesc ps).take R := by
    rw [← hsortlen, ← List.take_take, List.take_length]
  rw [htake]
  have hxs : x ∈ sortDesc ps := hperm.mem_iff.mpr hx
  rcases List.mem_iff_getElem.mp hxs with ⟨i, hi, hxi⟩
  have hpair := List.pairwise_iff_getElem.mp (sortDesc_pairwise ps)
  have hsnd_nodup : ((sortDesc ps).map Prod.snd).Nodup :=
    (hperm.map Prod.snd).nodup_iff.mpr hnodup
  have hstrict : ∀ (j : Nat) (hjlen : j < (sortDesc ps).length), j < i →
      x.2 < ((sortDesc ps)[j]).2 := by
    intro j hjlen hj
    have hle : ((sortDesc ps)[i]).2 ≤ ((sortDesc ps)[j]).2 :=
      hpair j i hjlen hi hj
    have hne : ((sortDesc ps)[j]).2 ≠ ((sortDesc ps)[i]).2 := by
      intro heq
      have hj' : j < ((sortDesc ps).map Prod.snd).length := by
        simp only [List.length_map]
        omega
      have hi' : i < ((sortDesc ps).map Prod.snd).length := by
        simp only [List.length_map]
        omega
      have hmapeq : ((sortDesc ps).map Prod.snd)[j] =
          ((sortDesc ps).map Prod.snd)[i] := by
        rw [List.getElem_map, List.getElem_map]
        exact heq
      have := (List.Nodup.getElem_inj_iff hsnd_nodup).mp hmapeq
      omega
    rw [hxi] at hle hne
    rcases lt_or_eq_of_le hle with h | h
    · exact h
    · exact absurd h.symm hne
  have hcount_take : ∀ a ∈ (sortDesc ps).take i,
      (fun r => decide (x.2 < r.2)) a = true := by
    intro a ha
    rcases List.mem_iff_getElem.mp ha with ⟨j, hj, haj⟩
    have hj' : j < i := by
      simp only [List.length_take] at hj
      omega
    have hs := hstrict j (by omega) hj'
    rw [List.getElem_take] at haj
    rw [haj] at hs
    simpa using hs
  have hile : i ≤ (sortDesc ps).countP (fun r => decide (x.2 < r.2)) := by
    have hlen_take : ((sortDesc ps).take i).length = i := by
      simp only [List.length_take]
      omega
    calc i = ((sortDesc ps).take i).countP
          (fun r => decide (x.2 < r.2)) := by
            rw [List.countP_eq_length.mpr hcount_take, hlen_take]
      _ ≤ _ := by
            conv_rhs => rw [(List.take_append_drop i (sortDesc ps)).symm]
            rw [List.countP_append]
            omega
  have hiR : i < R := by
    rw [hperm.countP_eq] at hile
    omega
  have hi' : i < ((sortDesc ps).take R).length := by
    simp only [List.length_take]
    omega
  have hgete : ((sortDesc ps).take R)[i] = x := by
    rw [List.getElem_take]
    exact hxi
  have hmem' : x ∈ (sortDesc ps).take R := by
    rw [← hgete]
    exact List.getElem_mem hi'
  exact List.mem_map_of_mem Prod.fst hmem'

theorem roundF32_eval (q : ℚ) (m n S : Nat) (E : ℤ) (v : ℚ)
    (h1 : q.num = (m : ℤ)) (h2 : q.den = n)
    (h3 : f32Sig m n = S) (h4 : f32Scale m n = E)
    (h5 : min ((S : ℚ) * pow2Q E) (pow2Q 128) = v) :
    roundF32 q = v := by
  unfold roundF32 roundF32Pos
  rw [h1, h2, if_neg (by omega), show ((m : ℤ)).natAbs = m from rfl,
    h3, h4, h5]

theorem roundF32_zero : roundF32 (0 : ℚ) = 0 :=
  roundF32_eval 0 0 1 0 (-24) 0 (by norm_num) (by norm_num) (by decide)
    (by decide) (by norm_num [pow2Q])

theorem roundF32_100 : roundF32 (100 : ℚ) = 100 :=
  roundF32_eval 100 100 1 13107200 (-17) 100 (by norm_num) (by norm_num)
    (by decide) (by decide) (by norm_num [pow2Q, min_def, show ((1 : ℤ)).toNat = 1 from rfl,
      show ((2 : ℤ)).toNat = 2 from rfl, show ((17 : ℤ)).toNat = 17 from rfl,
      show ((128 : ℤ)).toNat = 128 from rfl])

theorem roundF32_100_c07 : roundF32 ((100 : ℚ) * c07) = 70 :=
  roundF32_eval _ 293601275 4194304 9175040 (-17) 70 (by norm_num [c07])
    (by norm_num [c07]) (by decide) (by decide)
    (by norm_num [pow2Q, min_def, show ((1 : ℤ)).toNat = 1 from rfl,
      show ((2 : ℤ)).toNat = 2 from rfl, show ((17 : ℤ)).toNat = 17 from rfl,
      show ((128 : ℤ)).toNat = 128 from rfl])

theorem roundF32_70 : roundF32 (70 : ℚ) = 70 :=
  roundF32_eval 70 70 1 9175040 (-17) 70 (by norm_num) (by norm_num)
    (by decide) (by decide) (by norm_num [pow2Q, min_def, show ((1 : ℤ)).toNat = 1 from rfl,
      show ((2 : ℤ)).toNat = 2 from rfl, show ((17 : ℤ)).toNat = 17 from rfl,
      show ((128 : ℤ)).toNat = 128 from rfl])

theorem roundF32_2p25 : roundF32 (33554432 : ℚ) = 33554432 :=
  roundF32_eval 33554432 33554432 1 8388608 2 33554432 (by norm_num)
    (by norm_num) (by decide) (by decide) (by norm_num [pow2Q, min_def, show ((1 : ℤ)).toNat = 1 from rfl,
      show ((2 : ℤ)).toNat = 2 from rfl, show ((17 : ℤ)).toNat = 17 from rfl,
      show ((128 : ℤ)).toNat = 128 from rfl])

/-- The collapse the exact-score reading misses: `2^25 + 1` rounds to
`2^25` under `u64 as f32` (the binary32 ulp at `2^25` is `4`). -/
theorem roundF32_2p25_succ : roundF32 (33554433 : ℚ) = 33554432 :=
  roundF32_eval 33554433 33554433 1 8388608 2 33554432 (by norm_num)
    (by norm_num) (by decide) (by decide) (by norm_num [pow2Q, min_def, show ((1 : ℤ)).toNat = 1 from rfl,
      show ((2 : ℤ)).toNat = 2 from rfl, show ((17 : ℤ)).toNat = 17 from rfl,
      show ((128 : ℤ)).toNat = 128 from rfl])

theorem roundF32_2p25_c07 : roundF32 ((33554432 : ℚ) * c07) = 23488102 :=
  roundF32_eval _ 23488102 1 11744051 1 23488102 (by norm_num [c07])
    (by norm_num [c07]) (by decide) (by decide)
    (by norm_num [pow2Q, min_def, show ((1 : ℤ)).toNat = 1 from rfl,
      show ((2 : ℤ)).toNat = 2 from rfl, show ((17 : ℤ)).toNat = 17 from rfl,
      show ((128 : ℤ)).toNat = 128 from rfl])

theorem roundF32_23488102 : roundF32 (23488102 : ℚ) = 23488102 :=
  roundF32_eval 23488102 23488102 1 11744051 1 23488102 (by norm_num)
    (by norm_num) (by decide) (by decide) (by norm_num [pow2Q, min_def, show ((1 : ℤ)).toNat = 1 from rfl,
      show ((2 : ℤ)).toNat = 2 from rfl, show ((17 : ℤ)).toNat = 17 from rfl,
      show ((128 : ℤ)).toNat = 128 from rfl])

theorem peerScore_eval_d100 : peerScore ⟨0, 100, none, 1⟩ = 70 := by
  show roundF32 (roundF32 (roundF32 (roundF32 ((100 : Nat) : ℚ) * c07) +
    roundF32 (roundF32 ((0 : Nat) : ℚ) * c03)) * 1) = 70
  push_cast
  rw [roundF32_100, roundF32_zero, zero_mul, roundF32_zero, roundF32_100_c07,
    add_zero, roundF32_70, mul_one, roundF32_70]

theorem peerScore_eval_d0 : peerScore ⟨0, 0, none, 1⟩ = 0 := by
  show roundF32 (roundF32 (roundF32 (roundF32 ((0 : Nat) : ℚ) * c07) +
    roundF32 (roundF32 ((0 : Nat) : ℚ) * c03)) * 1) = 0
  push_cast
  rw [roundF32_zero, zero_mul, zero_mul, roundF32_zero, add_zero,
    roundF32_zero, mul_one, roundF32_zero]

theorem peerScore_eval_d2p25 : peerScore ⟨0, 33554432, none, 1⟩ =
    23488102 := by
  show roundF32 (roundF32 (roundF32 (roundF32 ((33554432 : Nat) : ℚ) * c07) +
    roundF32 (roundF32 ((0 : Nat) : ℚ) * c03)) * 1) = 23488102
  push_cast
  rw [roundF32_2p25, roundF32_zero, zero_mul, roundF32_zero,
    roundF32_2p25_c07, add_zero, roundF32_23488102, mul_one,
    roundF32_23488102]

theorem peerScore_eval_d2p25_succ : peerScore ⟨0, 33554433, none, 1⟩ =
    23488102 := by
  show roundF32 (roundF32 (roundF32 (roundF32 ((33554433 : Nat) : ℚ) * c07) +
    roundF32 (roundF32 ((0 : Nat) : ℚ) * c03)) * 1) = 23488102
  push_cast
  rw [roundF32_2p25_succ, roundF32_zero, zero_mul, roundF32_zero,
    roundF32_2p25_c07, add_zero, roundF32_23488102, mul_one,
    roundF32_23488102]

theorem calcUnchokeSet_noOpt (e : P2PEngine) (randVal : Nat)
    (hO : e.config.optimisticUnchokeCount = 0) :
    calcUnchokeSet e randVal =
      ((sortDesc (e.peerStats.map (fun q => (q.1, peerScore q.2)))).take
        (min e.config.regularUnchokeCount
          (e.peerStats.map (fun q => (q.1, peerScore q.2))).length)).map
        Prod.fst := by
  have h : calcUnchokeSet e randVal =
      if min e.config.regularUnchokeCount
          (e.peerStats.map (fun q => (q.1, peerScore q.2))).length <
          (e.peerStats.map (fun q => (q.1, peerScore q.2))).length ∧
          0 < e.config.optimisticUnchokeCount then
        (if ((sortDesc (e.peerStats.map (fun q => (q.1, peerScore q.2)))).drop
            (min e.config.regularUnchokeCount
              (e.peerStats.map (fun q =>
                (q.1, peerScore q.2))).length)).length = 0 then
          ((sortDesc (e.peerStats.map (fun q => (q.1, peerScore q.2)))).take
            (min e.config.regularUnchokeCount
              (e.peerStats.map (fun q => (q.1, peerScore q.2))).length)).map
            Prod.fst
        else
          ((sortDesc (e.peerStats.map (fun q => (q.1, peerScore q.2)))).take
            (min e.config.regularUnchokeCount
              (e.peerStats.map (fun q => (q.1, peerScore q.2))).length)).map
            Prod.fst ++
          [(((sortDesc (e.peerStats.map (fun q =>
              (q.1, peerScore q.2)))).drop
            (min e.config.regularUnchokeCount
              (e.peerStats.map (fun q => (q.1, peerScore q.2))).length)).getD
            (randVal %
              ((sortDesc (e.peerStats.map (fun q =>
                (q.1, peerScore q.2)))).drop
                (min e.config.regularUnchokeCount
                  (e.peerStats.map (fun q =>
                    (q.1, peerScore q.2))).length)).length) (0, 0)).1])
      else
        ((sortDesc (e.peerStats.map (fun q => (q.1, peerScore q.2)))).take
          (min e.config.regularUnchokeCount
            (e.peerStats.map (fun q => (q.1, peerScore q.2))).length)).map
          Prod.fst := rfl
  rw [h, if_neg (by rw [hO]; omega)]

/-- C7 counterexample: the original claim read with the spec's exact
score `(0.7·downloaded + 0.3·uploaded)·reliability` fails on the program.
Peers 2 and 1 have downloaded counts `2^25` and `2^25 + 1` (uploaded 0,
reliability 1), so their exact scores are distinct and peer 1 is beaten
by nobody (a strict descending ordering with peer 1 on top, regular
count 1, optimistic count 0) — yet the engine publishes only peer 2: the
`u64 as f32` casts collapse both scores to the same float, the sort sees
a tie, and iteration order (peer 2 first) decides. -/
theorem unchoke_exact_top_peer_excluded :
    (([(2, (⟨0, 33554432, none, 1⟩ : PeerStats)),
        (1, ⟨0, 33554433, none, 1⟩)].map (fun q => specScore q.2)).Nodup) ∧
    (1 ≤ [(2, (⟨0, 33554432, none, 1⟩ : PeerStats)),
        (1, ⟨0, 33554433, none, 1⟩)].length) ∧
    ([(2, (⟨0, 33554432, none, 1⟩ : PeerStats)),
        (1, ⟨0, 33554433, none, 1⟩)].countP
      (fun r => decide (specScore ⟨0, 33554433, none, 1⟩ <
        specScore r.2)) < 1) ∧
    1 ∉ (updateUnchokeSet ⟨[(2, ⟨0, 33554432, none, 1⟩),
        (1, ⟨0, 33554433, none, 1⟩)], [], ⟨50, 100, 10, 1, 0⟩⟩
        0).unchokedPeers := by
  refine ⟨?_, ?_, ?_, ?_⟩
  · simp only [List.map_cons, List.map_nil, specScore]
    norm_num
  · simp
  · simp only [List.countP_cons, List.countP_nil, decide_eq_true_eq,
      specScore]
    norm_num
  · have hpub : (updateUnchokeSet ⟨[(2, ⟨0, 33554432, none, 1⟩),
        (1, ⟨0, 33554433, none, 1⟩)], [], ⟨50, 100, 10, 1, 0⟩⟩
        0).unchokedPeers =
        calcUnchokeSet ⟨[(2, ⟨0, 33554432, none, 1⟩),
          (1, ⟨0, 33554433, none, 1⟩)], [], ⟨50, 100, 10, 1, 0⟩⟩ 0 := rfl
    rw [hpub, calcUnchokeSet_noOpt _ 0 rfl]
    simp only [List.map_cons, List.map_nil]
    rw [peerScore_eval_d2p25, peerScore_eval_d2p25_succ]
    have hsort : sortDesc [(2, (23488102 : ℚ)), (1, 23488102)] =
        [(2, (23488102 : ℚ)), (1, 23488102)] := by
      show insertDesc (2, (23488102 : ℚ))
        (insertDesc (1, (23488102 : ℚ)) []) = _
      show (if (23488102 : ℚ) < 23488102 then
        (1, (23488102 : ℚ)) :: insertDesc (2, 23488102) []
        else (2, (23488102 : ℚ)) :: (1, 23488102) :: []) = _
      rw [if_neg (lt_irrefl _)]
    rw [hsort]
    simp

/-- C7 (amended): after every `update_unchoke_set`, (1) the published
set has at most `regular_unchoke_count + optimistic_unchoke_count`
members, and (2) when at least `regular_unchoke_count` peers exist and
the scores as the program computes them — binary32 arithmetic,
`(downloaded as f32 * 0.7 + uploaded as f32 * 0.3) * reliability` —
admit a strict descending ordering (pairwise distinct), every peer
beaten in that score by fewer than `regular_unchoke_count` others is in
the set. -/
theorem unchoke_set_bound_and_top_scores (e : P2PEngine) (randVal : Nat) :
    ((updateUnchokeSet e randVal).unchokedPeers.length ≤
      e.config.regularUnchokeCount + e.config.optimisticUnchokeCount) ∧
    ((e.peerStats.map (fun q => peerScore q.2)).Nodup →
      e.config.regularUnchokeCount ≤ e.peerStats.length →
      ∀ q ∈ e.peerStats,
        e.peerStats.countP
            (fun r => decide (peerScore q.2 < peerScore r.2)) <
          e.config.regularUnchokeCount →
        q.1 ∈ (updateUnchokeSet e randVal).unchokedPeers) := by
  have hpub : (updateUnchokeSet e randVal).unchokedPeers =
      calcUnchokeSet e randVal := rfl
  rw [hpub]
  set ps := e.peerStats.map (fun q => (q.1, peerScore q.2)) with hps
  set sorted := sortDesc ps with hsorted_def
  set rc := min e.config.regularUnchokeCount ps.length with hrc
  have hcalc : calcUnchokeSet e randVal =
      if rc < ps.length ∧ 0 < e.config.optimisticUnchokeCount then
        (if (sorted.drop rc).length = 0 then
          (sorted.take rc).map Prod.fst
        else (sorted.take rc).map Prod.fst ++
          [((sorted.drop rc).getD
            (randVal % (sorted.drop rc).length) (0, 0)).1])
      else (sorted.take rc).map Prod.fst := rfl
  have hsortlen : sorted.length = ps.length := by
    rw [hsorted_def]
    exact (sortDesc_perm ps).length_eq
  have hbaselen : ((sorted.take rc).map Prod.fst).length ≤
      e.config.regularUnchokeCount := by
    simp only [List.length_map, List.length_take]
    omega
  constructor
  · rw [hcalc]
    by_cases hcond : rc < ps.length ∧ 0 < e.config.optimisticUnchokeCount
    · rw [if_pos hcond]
      obtain ⟨hc1, hc2⟩ := hcond
      by_cases hrem : (sorted.drop rc).length = 0
      · rw [if_pos hrem]
        omega
      · rw [if_neg hrem]
        simp only [List.length_append, List.length_cons, List.length_nil]
        omega
    · rw [if_neg hcond]
      omega
  · intro hnodup hR q hq hcount
    have hsnd : ps.map Prod.snd = e.peerStats.map (fun q => peerScore q.2) := by
      rw [hps, List.map_map]
      rfl
    have hcountps : ps.countP
        (fun r => decide (peerScore q.2 < r.2)) =
        e.peerStats.countP
          (fun r => decide (peerScore q.2 < peerScore r.2)) := by
      rw [hps, List.countP_map]
      rfl
    have hmem := mem_take_sortDesc ps e.config.regularUnchokeCount
      (q.1, peerScore q.2)
      (by rw [hsnd]; exact hnodup)
      (by rw [hps]; exact List.mem_map_of_mem _ hq)
      (by rw [hcountps]; exact hcount)
    rw [hcalc]
    by_cases hcond : rc < ps.length ∧ 0 < e.config.optimisticUnchokeCount
    · rw [if_pos hcond]
      by_cases hrem : (sorted.drop rc).length = 0
      · rw [if_pos hrem]; exact hmem
      · rw [if_neg hrem]
        exact List.mem_append_left _ hmem
    · rw [if_neg hcond]
      exact hmem

/-- Witness for `unchoke_set_bound_and_top_scores`: two peers, regular
count 1, optimistic count 1; the binary32 scores are 70 and 0, so the
strictly best peer (id 1) is in the published set, whose size respects
the bound. -/
theorem unchoke_set_bound_and_top_scores_witness :
    ((updateUnchokeSet ⟨[(1, ⟨0, 100, none, 1⟩), (2, ⟨0, 0, none, 1⟩)], [],
        ⟨50, 100, 10, 1, 1⟩⟩ 0).unchokedPeers.length ≤ 1 + 1) ∧
    1 ∈ (updateUnchokeSet ⟨[(1, ⟨0, 100, none, 1⟩), (2, ⟨0, 0, none, 1⟩)],
        [], ⟨50, 100, 10, 1, 1⟩⟩ 0).unchokedPeers :=
  ⟨(unchoke_set_bound_and_top_scores
      ⟨[(1, ⟨0, 100, none, 1⟩), (2, ⟨0, 0, none, 1⟩)], [],
        ⟨50, 100, 10, 1, 1⟩⟩ 0).1,
    (unchoke_set_bound_and_top_scores
      ⟨[(1, ⟨0, 100, none, 1⟩), (2, ⟨0, 0, none, 1⟩)], [],
        ⟨50, 100, 10, 1, 1⟩⟩ 0).2
      (by simp only [List.map_cons, List.map_nil]
          rw [peerScore_eval_d100, peerScore_eval_d0]
          norm_num)
      (by simp)
      (1, ⟨0, 100, none, 1⟩) (List.mem_cons_self _ _)
      (by simp only [List.countP_cons, List.countP_nil, decide_eq_true_eq]
          rw [peerScore_eval_d100, peerScore_eval_d0]
          norm_num)⟩

theorem assocLookup_eq_none (id : Nat) :
    ∀ l : List (Nat × Nat), (∀ e ∈ l, e.1 ≠ id) → assocLookup id l = none := by
  intro l
  induction l with
  | nil => intro _; rfl
  | cons e rest ih =>
    intro h
    show (if e.1 = id then some e.2 else assocLookup id rest) = none
    rw [if_neg (h e (by simp)), ih (fun x hx => h x (by simp [hx]))]

theorem assocLookup_nodup_mem (id v : Nat) :
    ∀ l : List (Nat × Nat), (l.map Prod.fst).Nodup → (id, v) ∈ l →
      assocLookup id l = some v := by
  intro l
  induction l with
  | nil => intro _ h; simp at h
  | cons e rest ih =>
    intro hnd hm
    rcases List.mem_cons.mp hm with hm | hm
    · subst hm
      show (if id = id then some v else _) = some v
      rw [if_pos rfl]
    · rw [List.map_cons] at hnd
      rcases List.nodup_cons.mp hnd with ⟨hh, ht⟩
      show (if e.1 = id then some e.2 else assocLookup id rest) = some v
      have hne : e.1 ≠ id := by
        intro heq
        exact hh (by
          rw [heq]
          exact List.mem_map_of_mem Prod.fst hm)
      rw [if_neg hne, ih ht hm]

theorem partialIndex_keys (cs : List ChunkData) :
    ((cs.enum.map (fun p => (p.2.id, p.1))).reverse.map Prod.fst) =
      (cs.map ChunkData.id).reverse := by
  rw [List.map_reverse]
  congr 1
  rw [List.map_map]
  have : (Prod.fst ∘ fun p : Nat × ChunkData => (p.2.id, p.1)) =
      (fun p : Nat × ChunkData => p.2.id) := rfl
  rw [this]
  have hcomp : (fun p : Nat × ChunkData => p.2.id) =
      (ChunkData.id ∘ Prod.snd) := rfl
  rw [hcomp, ← List.map_map, List.enum_map_snd]

theorem mem_partialIndex (cs : List ChunkData) (j : Nat)
    (hj : j < cs.length) :
    ((cs[j]).id, j) ∈ (cs.enum.map (fun p => (p.2.id, p.1))).reverse := by
  rw [List.mem_reverse]
  have henum : (j, cs[j]) ∈ cs.enum := by
    have hje : j < cs.enum.length := by simpa using hj
    have : cs.enum[j] = (j, cs[j]) :=
      List.getElem_enum _ _ _
    rw [← this]
    exact List.getElem_mem _
  exact List.mem_map_of_mem _ henum

theorem mem_partialIndex_elim (cs : List ChunkData) (e : Nat × Nat)
    (he : e ∈ (cs.enum.map (fun p => (p.2.id, p.1))).reverse) :
    ∃ (hj : e.2 < cs.length), (cs[e.2]).id = e.1 := by
  rw [List.mem_reverse] at he
  rcases List.mem_map.mp he with ⟨p, hp, hpe⟩
  have hzip : p ∈ (List.range cs.length).zip cs := by
    rw [← List.enum_eq_zip_range]
    exact hp
  rcases List.mem_iff_getElem.mp hp with ⟨i, hi, hie⟩
  have hlen : i < cs.length := by
    simpa using hi
  have : cs.enum[i] = (i, cs[i]) := List.getElem_enum _ _ _
  rw [this] at hie
  rw [← hpe, ← hie]
  exact ⟨hlen, rfl⟩

theorem partialStore_slots_set (N : Nat) (cs : List ChunkData)
    (c : ChunkData) (_hlen : cs.length < N) :
    ((List.range N).map (fun i => cs.get? i)).set cs.length (some c) =
      (List.range N).map (fun i => (cs ++ [c]).get? i) := by
  apply List.ext_getElem
  · simp
  · intro i h1 h2
    simp only [List.length_set, List.length_map, List.length_range] at h1 h2
    rw [List.getElem_set]
    simp only [List.getElem_map, List.getElem_range]
    by_cases he : cs.length = i
    · rw [if_pos he, ← he]
      rw [List.get?_eq_getElem?, List.getElem?_append_right (le_refl _)]
      simp
    · rw [if_neg he]
      rcases Nat.lt_or_ge i cs.length with hlt | hge
      · rw [List.get?_eq_getElem?, List.get?_eq_getElem?,
          List.getElem?_append, if_pos hlt]
      · have hgt : cs.length < i := by omega
        rw [List.get?_eq_getElem?, List.get?_eq_getElem?,
          List.getElem?_eq_none (by omega),
          List.getElem?_eq_none (by simp; omega)]

theorem partialIndex_append (cs : List ChunkData) (c : ChunkData) :
    ((cs ++ [c]).enum.map (fun p => (p.2.id, p.1))).reverse =
      (c.id, cs.length) :: (cs.enum.map (fun p => (p.2.id, p.1))).reverse := by
  have henum : (cs ++ [c]).enum = cs.enum ++ [(cs.length, c)] := by
    rw [List.enum_eq_zip_range, List.enum_eq_zip_range,
      List.length_append, List.length_cons, List.length_nil,
      List.range_succ, List.zip_append (by simp)]
    simp
  rw [henum, List.map_append, List.reverse_append]
  simp

theorem partialStore_insert_fresh (N ttl : Nat) (cs : List ChunkData)
    (c : ChunkData) (hlen : cs.length < N)
    (hfresh : c.id ∉ cs.map ChunkData.id) :
    (partialStore N ttl cs).insertChunk c =
      some (partialStore N ttl (cs ++ [c])) := by
  have hkeys : ∀ e ∈ (cs.enum.map (fun p => (p.2.id, p.1))).reverse,
      e.1 ≠ c.id := by
    intro e he heq
    rcases mem_partialIndex_elim cs e he with ⟨hj, hid⟩
    exact hfresh (by
      rw [← heq, ← hid]
      exact List.mem_map_of_mem ChunkData.id (List.getElem_mem hj))
  have hlook : assocLookup c.id (partialStore N ttl cs).index = none :=
    assocLookup_eq_none c.id _ hkeys
  unfold ChunkStore.insertChunk ChunkStore.insertDedup
  rw [hlook]
  show (partialStore N ttl cs).insertInstall c (partialStore N ttl cs).slots
      (partialStore N ttl cs).index = some (partialStore N ttl (cs ++ [c]))
  unfold ChunkStore.insertInstall
  rw [dif_neg (by simp [partialStore]; omega)]
  have hcap : (partialStore N ttl cs).capacity = N := rfl
  have hwh : (partialStore N ttl cs).writeHead = cs.length := rfl
  rw [hcap, hwh, Nat.mod_eq_of_lt hlen]
  have hslotslen : (partialStore N ttl cs).slots.length = N := by
    simp [partialStore]
  rw [dif_pos (by rw [hslotslen]; exact hlen)]
  have hget : (partialStore N ttl cs).slots.get
      ⟨cs.length, by rw [hslotslen]; exact hlen⟩ = none := by
    show ((List.range N).map (fun i => cs.get? i)).get _ = none
    rw [List.get_eq_getElem, List.getElem_map, List.getElem_range]
    exact List.get?_eq_none.mpr (le_refl _)
  rw [hget]
  refine congrArg some ?_
  show ({ partialStore N ttl cs with
      slots := (partialStore N ttl cs).slots.set cs.length (some c)
      writeHead := (partialStore N ttl cs).writeHead + 1
      index := assocInsert c.id cs.length
        (partialStore N ttl cs).index } : ChunkStore) =
    partialStore N ttl (cs ++ [c])
  have hrem : assocRemove c.id (partialStore N ttl cs).index =
      (partialStore N ttl cs).index := by
    apply List.filter_eq_self.mpr
    intro e he
    simpa using hkeys e he
  have hidx : assocInsert c.id cs.length (partialStore N ttl cs).index =
      (partialStore N ttl (cs ++ [c])).index := by
    unfold assocInsert
    rw [hrem]
    show (c.id, cs.length) :: (cs.enum.map (fun p => (p.2.id, p.1))).reverse =
      ((cs ++ [c]).enum.map (fun p => (p.2.id, p.1))).reverse
    rw [partialIndex_append]
  have hslots : (partialStore N ttl cs).slots.set cs.length (some c) =
      (partialStore N ttl (cs ++ [c])).slots := by
    show ((List.range N).map (fun i => cs.get? i)).set cs.length (some c) =
      (List.range N).map (fun i => (cs ++ [c]).get? i)
    exact partialStore_slots_set N cs c hlen
  rw [ChunkStore.mk.injEq]
  refine ⟨hslots, by simp [partialStore], hidx, rfl, rfl, rfl, rfl, rfl⟩

theorem partialStore_insert_evict (N ttl : Nat) (c0 : ChunkData)
    (rest : List ChunkData) (c : ChunkData)
    (hlen : (c0 :: rest).length = N)
    (hfresh : c.id ∉ (c0 :: rest).map ChunkData.id) :
    (partialStore N ttl (c0 :: rest)).insertChunk c = some
      { slots := ((List.range N).map
          (fun i => (c0 :: rest).get? i)).set 0 (some c)
        writeHead := N + 1
        index := (c.id, 0) :: assocRemove c0.id
          (((c0 :: rest).enum.map (fun p => (p.2.id, p.1))).reverse)
        capacity := N
        chunkTtl := ttl
        evictionsTotal := 1
        hitsTotal := 0
        missesTotal := 0 } := by
  have hN : 0 < N := by
    rw [← hlen]
    simp
  have hkeys : ∀ e ∈ ((c0 :: rest).enum.map (fun p => (p.2.id, p.1))).reverse,
      e.1 ≠ c.id := by
    intro e he heq
    rcases mem_partialIndex_elim (c0 :: rest) e he with ⟨hj, hid⟩
    exact hfresh (by
      rw [← heq, ← hid]
      exact List.mem_map_of_mem ChunkData.id (List.getElem_mem hj))
  have hlook : assocLookup c.id (partialStore N ttl (c0 :: rest)).index =
      none := assocLookup_eq_none c.id _ hkeys
  unfold ChunkStore.insertChunk ChunkStore.insertDedup
  rw [hlook]
  show (partialStore N ttl (c0 :: rest)).insertInstall c
      (partialStore N ttl (c0 :: rest)).slots
      (partialStore N ttl (c0 :: rest)).index = some _
  unfold ChunkStore.insertInstall
  rw [dif_neg (by simp [partialStore]; omega)]
  have hcap : (partialStore N ttl (c0 :: rest)).capacity = N := rfl
  have hwh : (partialStore N ttl (c0 :: rest)).writeHead =
      (c0 :: rest).length := rfl
  rw [hcap, hwh, hlen, Nat.mod_self]
  have hslotslen : (partialStore N ttl (c0 :: rest)).slots.length = N := by
    simp [partialStore]
  rw [dif_pos (by rw [hslotslen]; exact hN)]
  have hget : (partialStore N ttl (c0 :: rest)).slots.get
      ⟨0, by rw [hslotslen]; exact hN⟩ = some c0 := by
    show ((List.range N).map (fun i => (c0 :: rest).get? i)).get _ = some c0
    rw [List.get_eq_getElem, List.getElem_map, List.getElem_range]
    rfl
  rw [hget]
  refine congrArg some ?_
  rw [ChunkStore.mk.injEq]
  have hrem : assocRemove c.id
      (assocRemove c0.id (partialStore N ttl (c0 :: rest)).index) =
      assocRemove c0.id (partialStore N ttl (c0 :: rest)).index := by
    apply List.filter_eq_self.mpr
    intro e he
    simpa using hkeys e (mem_assocRemove he)
  refine ⟨rfl, rfl, ?_, rfl, rfl, rfl, rfl, rfl⟩
  show assocInsert c.id 0 (assocRemove c0.id
      (partialStore N ttl (c0 :: rest)).index) = _
  unfold assocInsert
  rw [hrem]
  rfl

theorem getChunk_of_lookup_none (s : ChunkStore) (id : Nat)
    (h : assocLookup id s.index = none) :
    s.getChunk id = some (none, { s with missesTotal := s.missesTotal + 1 }) := by
  unfold ChunkStore.getChunk
  rw [h]

theorem lookupChunk_of_lookup_none (s : ChunkStore) (id : Nat)
    (h : assocLookup id s.index = none) : s.lookupChunk id = none := by
  unfold ChunkStore.lookupChunk
  rw [getChunk_of_lookup_none s id h]

theorem getChunk_of_slot (s : ChunkStore) (id idx : Nat) (c : ChunkData)
    (h : assocLookup id s.index = some idx) (hb : idx < s.slots.length)
    (hslot : s.slots.get ⟨idx, hb⟩ = some c) :
    s.getChunk id = some (some c, { s with hitsTotal := s.hitsTotal + 1 }) := by
  unfold ChunkStore.getChunk
  rw [h]
  show (if _h : idx < s.slots.length then
      match s.slots.get ⟨idx, _h⟩ with
      | some chunk =>
        some (some chunk, { s with hitsTotal := s.hitsTotal + 1 })
      | none => some (none, { s with missesTotal := s.missesTotal + 1 })
    else none) = some (some c, { s with hitsTotal := s.hitsTotal + 1 })
  rw [dif_pos hb, hslot]

theorem lookupChunk_of_slot (s : ChunkStore) (id idx : Nat) (c : ChunkData)
    (h : assocLookup id s.index = some idx) (hb : idx < s.slots.length)
    (hslot : s.slots.get ⟨idx, hb⟩ = some c) :
    s.lookupChunk id = some c := by
  unfold ChunkStore.lookupChunk
  rw [getChunk_of_slot s id idx c h hb hslot]

theorem insertAll_append (l1 l2 : List ChunkData) :
    ∀ s : ChunkStore, s.insertAll (l1 ++ l2) =
      match s.insertAll l1 with
      | none => none
      | some s' => s'.insertAll l2 := by
  induction l1 with
  | nil => intro s; rfl
  | cons c rest ih =>
    intro s
    show (match s.insertChunk c with
      | none => none
      | some s' => s'.insertAll (rest ++ l2)) =
      match (match s.insertChunk c with
        | none => none
        | some s' => s'.insertAll rest) with
      | none => none
      | some s' => s'.insertAll l2
    rcases hins : s.insertChunk c with _ | s'
    · rfl
    · exact ih s'

theorem partialStore_nil (N ttl : Nat) :
    partialStore N ttl [] = ChunkStore.new N ttl := by
  unfold partialStore ChunkStore.new
  rw [ChunkStore.mk.injEq]
  refine ⟨?_, rfl, rfl, rfl, rfl, rfl, rfl, rfl⟩
  apply List.ext_getElem
  · simp
  · intro i h1 h2
    simp

theorem insertAll_fresh (N ttl : Nat) :
    ∀ cs : List ChunkData, cs.length ≤ N →
      ((cs.map ChunkData.id).Nodup) →
      (ChunkStore.new N ttl).insertAll cs = some (partialStore N ttl cs) := by
  intro cs
  induction cs using List.reverseRecOn with
  | nil =>
    intro _ _
    rw [← partialStore_nil N ttl]
    rfl
  | append_singleton l a ih =>
    intro hlen hnodup
    have hl : l.length < N := by
      simp only [List.length_append, List.length_cons, List.length_nil] at hlen
      omega
    rw [List.map_append] at hnodup
    rcases List.nodup_append.mp hnodup with ⟨hlnodup, _, hdisj⟩
    have hfresh : a.id ∉ l.map ChunkData.id := by
      intro hmem
      exact hdisj hmem (by simp)
    rw [insertAll_append l [a] (ChunkStore.new N ttl),
      ih (by omega) hlnodup]
    show (partialStore N ttl l).insertAll [a] =
      some (partialStore N ttl (l ++ [a]))
    show (match (partialStore N ttl l).insertChunk a with
      | none => none
      | some s' => s'.insertAll []) = some (partialStore N ttl (l ++ [a]))
    rw [partialStore_insert_fresh N ttl l a hl hfresh]
    rfl

/-- C5 (confirmed): inserting `N+1` chunks with pairwise-distinct ids into
an empty capacity-`N` store leaves exactly one id absent (the first
inserted, whose slot was reclaimed), keeps the other `N` retrievable
(returning exactly the inserted chunk), and increments the eviction
counter by exactly one. -/
theorem chunk_store_eviction_exactly_one (N ttl : Nat) (c0 : ChunkData)
    (rest : List ChunkData) (hN : 0 < N) (hlen : rest.length = N)
    (hids : ((c0 :: rest).map ChunkData.id).Nodup) :
    ∃ s : ChunkStore,
      (ChunkStore.new N ttl).insertAll (c0 :: rest) = some s ∧
      s.lookupChunk c0.id = none ∧
      (∀ c ∈ rest, s.lookupChunk c.id = some c) ∧
      ((c0 :: rest).countP (fun c => (s.lookupChunk c.id).isNone)) = 1 ∧
      s.evictionsTotal = 1 := by
  -- decompose the insertion sequence into the first N chunks and the last
  rcases List.eq_nil_or_concat rest with hnil | ⟨mid, clast, hrest⟩
  · rw [hnil] at hlen
    simp at hlen
    omega
  subst hrest
  rw [List.concat_eq_append] at hlen hids ⊢
  have hmidlen : (c0 :: mid).length = N := by
    simp only [List.length_append, List.length_cons, List.length_nil] at hlen ⊢
    omega
  have hsplit : c0 :: (mid ++ [clast]) = (c0 :: mid) ++ [clast] := rfl
  have hids' : (((c0 :: mid) ++ [clast]).map ChunkData.id).Nodup := by
    rw [← hsplit]
    exact hids
  rw [List.map_append] at hids'
  rcases List.nodup_append.mp hids' with ⟨hfirstNodup, _, hdisj⟩
  have hclastFresh : clast.id ∉ (c0 :: mid).map ChunkData.id := by
    intro hmem
    exact hdisj hmem (by simp)
  have hc0_ne_clast : clast.id ≠ c0.id := by
    intro heq
    exact hclastFresh (by rw [heq]; simp)
  -- the id of any chunk of `mid` differs from the evicted id and from clast
  have hmid_ne_c0 : ∀ c ∈ mid, c.id ≠ c0.id := by
    intro c hc heq
    have h1 : (ChunkData.id c0) ∉ (mid ++ [clast]).map ChunkData.id := by
      have := List.nodup_cons.mp (by
        simpa using hids : (c0.id :: ((mid ++ [clast]).map ChunkData.id)).Nodup)
      exact this.1
    exact h1 (by
      rw [← heq]
      exact List.mem_map_of_mem _ (List.mem_append_left _ hc))
  have hmid_ne_clast : ∀ c ∈ mid, clast.id ≠ c.id := by
    intro c hc heq
    exact hclastFresh (by
      rw [heq]
      exact List.mem_cons_of_mem _ (List.mem_map_of_mem _ hc))
  -- run the first N fresh inserts, then the evicting one
  have hchain := insertAll_append (c0 :: mid) [clast] (ChunkStore.new N ttl)
  rw [insertAll_fresh N ttl (c0 :: mid) (by omega) hfirstNodup] at hchain
  have hevict := partialStore_insert_evict N ttl c0 mid clast hmidlen
    hclastFresh
  set F : ChunkStore :=
    { slots := ((List.range N).map
        (fun i => (c0 :: mid).get? i)).set 0 (some clast)
      writeHead := N + 1
      index := (clast.id, 0) :: assocRemove c0.id
        (((c0 :: mid).enum.map (fun p => (p.2.id, p.1))).reverse)
      capacity := N
      chunkTtl := ttl
      evictionsTotal := 1
      hitsTotal := 0
      missesTotal := 0 } with hF
  have hins : (ChunkStore.new N ttl).insertAll ((c0 :: mid) ++ [clast]) =
      some F := by
    rw [hchain]
    show (partialStore N ttl (c0 :: mid)).insertAll [clast] = some F
    show (match (partialStore N ttl (c0 :: mid)).insertChunk clast with
      | none => none
      | some s' => s'.insertAll []) = some F
    rw [hevict]
    rfl
  have hFslotslen : F.slots.length = N := by
    rw [hF]
    simp
  -- key facts about the final index
  have hkeysPIdx : ∀ e ∈ F.index, e.1 = clast.id ∨
      (e ∈ ((c0 :: mid).enum.map (fun p => (p.2.id, p.1))).reverse ∧
        e.1 ≠ c0.id) := by
    intro e he
    rw [hF] at he
    rcases List.mem_cons.mp he with he | he
    · left; rw [he]
    · right
      rcases List.mem_filter.mp he with ⟨hm, hp⟩
      exact ⟨hm, by simpa using hp⟩
  have hq1 : F.lookupChunk c0.id = none := by
    apply lookupChunk_of_lookup_none
    apply assocLookup_eq_none
    intro e he
    rcases hkeysPIdx e he with he1 | ⟨_, he2⟩
    · rw [he1]; exact hc0_ne_clast
    · exact he2
  -- Nodup of the final index keys
  have hFkeysNodup : (F.index.map Prod.fst).Nodup := by
    rw [hF]
    show (clast.id :: (assocRemove c0.id
      (((c0 :: mid).enum.map (fun p => (p.2.id, p.1))).reverse)).map
        Prod.fst).Nodup
    refine List.nodup_cons.mpr ⟨?_, ?_⟩
    · intro hmem
      rcases List.mem_map.mp hmem with ⟨e, he, hei⟩
      rcases mem_partialIndex_elim (c0 :: mid) e (mem_assocRemove he) with
        ⟨hj, hid⟩
      exact hclastFresh (by
        rw [← hei, ← hid]
        exact List.mem_map_of_mem ChunkData.id (List.getElem_mem hj))
    · have hsub : ((assocRemove c0.id
          (((c0 :: mid).enum.map (fun p => (p.2.id, p.1))).reverse)).map
            Prod.fst).Sublist
          ((((c0 :: mid).enum.map (fun p => (p.2.id, p.1))).reverse).map
            Prod.fst) :=
        (List.filter_sublist _).map Prod.fst
      refine hsub.nodup ?_
      rw [partialIndex_keys]
      exact (List.nodup_reverse).mpr hfirstNodup
  have hq3 : F.lookupChunk clast.id = some clast := by
    refine lookupChunk_of_slot F clast.id 0 clast ?_
      (by rw [hFslotslen]; exact hN) ?_
    · rw [hF]
      show (if clast.id = clast.id then some 0 else _) = some 0
      rw [if_pos rfl]
    · have hb : 0 < (((List.range N).map
          (fun i => (c0 :: mid).get? i)).set 0 (some clast)).length := by
        simp only [List.length_set, List.length_map, List.length_range]
        omega
      rw [List.get_eq_getElem]
      show (((List.range N).map
        (fun i => (c0 :: mid).get? i)).set 0 (some clast))[0] = some clast
      rw [List.getElem_set_self]
  have hq2mid : ∀ c ∈ mid, F.lookupChunk c.id = some c := by
    intro c hc
    rcases List.mem_iff_getElem.mp hc with ⟨j, hj, hcj⟩
    have hj1 : j + 1 < (c0 :: mid).length := by
      simp only [List.length_cons]
      omega
    have hj1N : j + 1 < N := by
      rw [← hmidlen]
      exact hj1
    have hentry : (((c0 :: mid)[j+1]).id, j + 1) ∈
        (((c0 :: mid).enum.map (fun p => (p.2.id, p.1))).reverse) :=
      mem_partialIndex (c0 :: mid) (j + 1) hj1
    have hcj1 : (c0 :: mid)[j+1] = c := by
      rw [List.getElem_cons_succ]
      exact hcj
    rw [hcj1] at hentry
    have hentryF : (c.id, j + 1) ∈ F.index := by
      rw [hF]
      refine List.mem_cons_of_mem _ (List.mem_filter.mpr ⟨hentry, ?_⟩)
      simpa using hmid_ne_c0 c hc
    refine lookupChunk_of_slot F c.id (j + 1) c
      (assocLookup_nodup_mem c.id (j + 1) F.index hFkeysNodup hentryF)
      (by rw [hFslotslen]; exact hj1N) ?_
    have hb : j + 1 < (((List.range N).map
        (fun i => (c0 :: mid).get? i)).set 0 (some clast)).length := by
      simp only [List.length_set, List.length_map, List.length_range]
      omega
    rw [List.get_eq_getElem]
    show (((List.range N).map
      (fun i => (c0 :: mid).get? i)).set 0 (some clast))[j+1] = some c
    rw [List.getElem_set_ne (by omega), List.getElem_map, List.getElem_range]
    rw [List.get?_eq_getElem?, List.getElem?_cons_succ,
      List.getElem?_eq_getElem hj, hcj]
  have hq2 : ∀ c ∈ mid ++ [clast], F.lookupChunk c.id = some c := by
    intro c hc
    rcases List.mem_append.mp hc with hc | hc
    · exact hq2mid c hc
    · rw [List.mem_singleton.mp hc]
      exact hq3
  refine ⟨F, hins, hq1, hq2, ?_, rfl⟩
  rw [List.countP_cons]
  have hz : (mid ++ [clast]).countP
      (fun c => (F.lookupChunk c.id).isNone) = 0 := by
    apply List.countP_eq_zero.mpr
    intro c hc
    rw [hq2 c hc]
    simp
  rw [hz, hq1]
  simp

/-- Witness for `chunk_store_eviction_exactly_one`: capacity 1, two
distinct chunks. -/
theorem chunk_store_eviction_exactly_one_witness :
    ∃ s : ChunkStore,
      (ChunkStore.new 1 60).insertAll
        [⟨0, 0, 0, 1, [], [0], none⟩, ⟨1, 1, 0, 1, [], [1], none⟩] =
        some s ∧
      s.lookupChunk 0 = none ∧
      (∀ c ∈ [(⟨1, 1, 0, 1, [], [1], none⟩ : ChunkData)],
        s.lookupChunk c.id = some c) ∧
      (([(⟨0, 0, 0, 1, [], [0], none⟩ : ChunkData),
          ⟨1, 1, 0, 1, [], [1], none⟩].countP
        (fun c => (s.lookupChunk c.id).isNone)) = 1) ∧
      s.evictionsTotal = 1 :=
  chunk_store_eviction_exactly_one 1 60 ⟨0, 0, 0, 1, [], [0], none⟩
    [⟨1, 1, 0, 1, [], [1], none⟩] (by decide) (by decide) (by decide)

theorem combineLevel_cons₂ (hs : String → String) (a b : String)
    (rest : List String) :
    combineLevel hs (a :: b :: rest) = hs (a ++ b) :: combineLevel hs rest :=
  rfl

theorem combineLevel_length (hs : String → String) :
    ∀ l : List String, (combineLevel hs l).length = l.length / 2
  | [] => by show (0 : Nat) = 0 / 2; omega
  | [_] => by show (0 : Nat) = 1 / 2; omega
  | a :: b :: rest => by
    rw [combineLevel_cons₂, List.length_cons, combineLevel_length hs rest]
    simp only [List.length_cons]
    omega

theorem combineLevel_getElem (hs : String → String) :
    ∀ (l : List String) (j : Nat) (h : 2 * j + 1 < l.length),
      (combineLevel hs l)[j]? =
        some (hs ((l[2 * j]) ++ (l[2 * j + 1])))
  | a :: b :: rest, 0, _ => by
    rw [combineLevel_cons₂]
    simp
  | a :: b :: rest, j + 1, h => by
    have hrest : 2 * j + 1 < rest.length := by
      simp only [List.length_cons] at h
      omega
    rw [combineLevel_cons₂, List.getElem?_cons_succ,
      combineLevel_getElem hs rest j hrest]
    have h2 : 2 * (j + 1) = (2 * j + 1) + 1 := by omega
    have h3 : 2 * (j + 1) + 1 = ((2 * j + 1) + 1) + 1 := by omega
    simp only [h2, h3, List.getElem_cons_succ]

theorem padLevel_length (l : List String) :
    (padLevel l).length = if l.length % 2 = 1 then l.length + 1
      else l.length := by
  unfold padLevel
  by_cases h : l.length % 2 = 1
  · rw [if_pos h, if_pos h, List.length_append, List.length_drop]
    omega
  · rw [if_neg h, if_neg h]

theorem padLevel_even (l : List String) : (padLevel l).length % 2 = 0 := by
  rw [padLevel_length]
  by_cases h : l.length % 2 = 1
  · rw [if_pos h]; omega
  · rw [if_neg h]; omega

theorem padLevel_getElem (l : List String) (i : Nat) (h : i < l.length) :
    (padLevel l)[i]? = l[i]? := by
  unfold padLevel
  by_cases hp : l.length % 2 = 1
  · rw [if_pos hp, List.getElem?_append, if_pos h]
  · rw [if_neg hp]

theorem nextLevel_length (hs : String → String) (l : List String)
    (h : 2 ≤ l.length) :
    (combineLevel hs (padLevel l)).length ≤ l.length - 1 ∧
      (combineLevel hs (padLevel l)).length = (padLevel l).length / 2 := by
  refine ⟨?_, combineLevel_length hs (padLevel l)⟩
  rw [combineLevel_length hs (padLevel l), padLevel_length]
  by_cases hp : l.length % 2 = 1
  · rw [if_pos hp]; omega
  · rw [if_neg hp]; omega

theorem rootFuel_congr (hs : String → String) :
    ∀ (fuel1 fuel2 : Nat) (l : List String), l.length ≤ fuel1 →
      l.length ≤ fuel2 → rootFuel hs fuel1 l = rootFuel hs fuel2 l := by
  intro fuel1
  induction fuel1 with
  | zero =>
    intro fuel2 l h1 _
    have : l = [] := List.length_eq_zero.mp (by omega)
    subst this
    cases fuel2 <;> rfl
  | succ fuel1 ih =>
    intro fuel2 l h1 h2
    by_cases hlen : l.length ≤ 1
    · show (if l.length ≤ 1 then l.headD ""
        else rootFuel hs fuel1 (combineLevel hs (padLevel l))) = _
      rw [if_pos hlen]
      cases fuel2 with
      | zero => rfl
      | succ fuel2 =>
        show _ = (if l.length ≤ 1 then l.headD "" else _)
        rw [if_pos hlen]
    · have hge : 2 ≤ l.length := by omega
      rcases Nat.exists_eq_add_of_le h2 with ⟨k, hk⟩
      have hf2 : ∃ f2', fuel2 = f2' + 1 := ⟨fuel2 - 1, by omega⟩
      rcases hf2 with ⟨f2', rfl⟩
      show (if l.length ≤ 1 then l.headD ""
        else rootFuel hs fuel1 (combineLevel hs (padLevel l))) =
        (if l.length ≤ 1 then l.headD ""
        else rootFuel hs f2' (combineLevel hs (padLevel l)))
      rw [if_neg hlen, if_neg hlen]
      have hnext := (nextLevel_length hs l hge).1
      exact ih f2' _ (by omega) (by omega)

theorem buildLevelsFuel_congr (hs : String → String) :
    ∀ (fuel1 fuel2 : Nat) (l : List String), l.length ≤ fuel1 →
      l.length ≤ fuel2 →
      buildLevelsFuel hs fuel1 l = buildLevelsFuel hs fuel2 l := by
  intro fuel1
  induction fuel1 with
  | zero =>
    intro fuel2 l h1 _
    have : l = [] := List.length_eq_zero.mp (by omega)
    subst this
    cases fuel2 <;> rfl
  | succ fuel1 ih =>
    intro fuel2 l h1 h2
    by_cases hlen : l.length ≤ 1
    · show (if l.length ≤ 1 then []
        else padLevel l :: buildLevelsFuel hs fuel1
          (combineLevel hs (padLevel l))) = _
      rw [if_pos hlen]
      cases fuel2 with
      | zero => rfl
      | succ fuel2 =>
        show _ = (if l.length ≤ 1 then [] else _)
        rw [if_pos hlen]
    · have hge : 2 ≤ l.length := by omega
      have hf2 : ∃ f2', fuel2 = f2' + 1 := ⟨fuel2 - 1, by omega⟩
      rcases hf2 with ⟨f2', rfl⟩
      show (if l.length ≤ 1 then []
        else padLevel l :: buildLevelsFuel hs fuel1
          (combineLevel hs (padLevel l))) =
        (if l.length ≤ 1 then []
        else padLevel l :: buildLevelsFuel hs f2'
          (combineLevel hs (padLevel l)))
      rw [if_neg hlen, if_neg hlen]
      have hnext := (nextLevel_length hs l hge).1
      rw [ih f2' _ (by omega) (by omega)]
theorem getProofAux_cons (lvl : List String) (rest : List (List String))
    (i : Nat) (h : (if i % 2 = 0 then i + 1 else i - 1) < lvl.length) :
    getProofAux (lvl :: rest) i =
      lvl.getD (if i % 2 = 0 then i + 1 else i - 1) "" ::
        getProofAux rest (i / 2) := by
  show ((if (if i % 2 = 0 then i + 1 else i - 1) < lvl.length
      then [lvl.getD (if i % 2 = 0 then i + 1 else i - 1) ""] else []) ++
      getProofAux rest (i / 2)) = _
  rw [if_pos h]
  rfl

theorem verifyFold_cons (hs : String → String) (sib : String)
    (rest : List String) (hash : String) (i : Nat) :
    verifyFold hs (sib :: rest) hash i =
      verifyFold hs rest
        (if i % 2 = 0 then hs (hash ++ sib) else hs (sib ++ hash))
        (i / 2) :=
  rfl
theorem merkle_verify_level (hs : String → String) :
    ∀ (n : Nat) (l : List String), l.length ≤ n →
      ∀ i, i < l.length →
        verifyFold hs (getProofAux (buildLevelsFuel hs n l) i)
          (l.getD i "") i = rootFuel hs n l := by
  intro n
  induction n with
  | zero => intro l h1 i hi; omega
  | succ n ih =>
    intro l h1 i hi
    by_cases hlen : l.length ≤ 1
    · have hi0 : i = 0 := by omega
      subst hi0
      have h2 : buildLevelsFuel hs (n + 1) l = [] := by
        show (if l.length ≤ 1 then []
          else padLevel l :: buildLevelsFuel hs n
            (combineLevel hs (padLevel l))) = []
        rw [if_pos hlen]
      have h3 : rootFuel hs (n + 1) l = l.headD "" := by
        show (if l.length ≤ 1 then l.headD ""
          else rootFuel hs n (combineLevel hs (padLevel l))) = _
        rw [if_pos hlen]
      rw [h2, h3]
      cases l with
      | nil => simp at hi
      | cons a t => rfl
    · have hge : 2 ≤ l.length := by omega
      have hPlen := padLevel_length l
      have hPeven := padLevel_even l
      have hllP : l.length ≤ (padLevel l).length := by
        rw [hPlen]; by_cases hp : l.length % 2 = 1
        · rw [if_pos hp]; omega
        · rw [if_neg hp]
      have hsib : (if i % 2 = 0 then i + 1 else i - 1) <
          (padLevel l).length := by
        by_cases hpar : i % 2 = 0
        · rw [if_pos hpar]; omega
        · rw [if_neg hpar]; omega
      have hb : buildLevelsFuel hs (n + 1) l =
          padLevel l :: buildLevelsFuel hs n
            (combineLevel hs (padLevel l)) := by
        show (if l.length ≤ 1 then []
          else padLevel l :: buildLevelsFuel hs n
            (combineLevel hs (padLevel l))) = _
        rw [if_neg hlen]
      have hr : rootFuel hs (n + 1) l =
          rootFuel hs n (combineLevel hs (padLevel l)) := by
        show (if l.length ≤ 1 then l.headD ""
          else rootFuel hs n (combineLevel hs (padLevel l))) = _
        rw [if_neg hlen]
      rw [hb, hr, getProofAux_cons (padLevel l) _ i hsib, verifyFold_cons]
      have hnl := nextLevel_length hs l hge
      have hclen : (combineLevel hs (padLevel l)).length =
          (padLevel l).length / 2 := hnl.2
      have hi2 : i / 2 < (combineLevel hs (padLevel l)).length := by
        rw [hclen]; omega
      have hkey : 2 * (i / 2) + 1 < (padLevel l).length := by omega
      have hcomb := combineLevel_getElem hs (padLevel l) (i / 2) hkey
      have hgd : (combineLevel hs (padLevel l)).getD (i / 2) "" =
          hs (((padLevel l)[2 * (i / 2)]) ++
            ((padLevel l)[2 * (i / 2) + 1])) := by
        rw [List.getD_eq_getElem?_getD, hcomb, Option.getD_some]
      have hpli : (padLevel l).getD i "" = l.getD i "" := by
        rw [List.getD_eq_getElem?_getD, List.getD_eq_getElem?_getD,
          padLevel_getElem l i hi]
      have hstep : (if i % 2 = 0
            then hs (l.getD i "" ++
              (padLevel l).getD (if i % 2 = 0 then i + 1 else i - 1) "")
            else hs ((padLevel l).getD (if i % 2 = 0 then i + 1 else i - 1)
              "" ++ l.getD i "")) =
          (combineLevel hs (padLevel l)).getD (i / 2) "" := by
        rw [hgd]
        by_cases hpar : i % 2 = 0
        · rw [if_pos hpar, if_pos hpar]
          have h2i : 2 * (i / 2) = i := by omega
          have h2i1 : 2 * (i / 2) + 1 = i + 1 := by omega
          have hiP : i < (padLevel l).length := by omega
          have hi1P : i + 1 < (padLevel l).length := by omega
          have he1 : ((padLevel l)[2 * (i / 2)]) =
              (padLevel l).getD i "" := by
            simp only [h2i]
            rw [List.getD_eq_getElem?_getD, List.getElem?_eq_getElem hiP,
              Option.getD_some]
          have he2 : ((padLevel l)[2 * (i / 2) + 1]) =
              (padLevel l).getD (i + 1) "" := by
            simp only [h2i1]
            rw [List.getD_eq_getElem?_getD, List.getElem?_eq_getElem hi1P,
              Option.getD_some]
          rw [he1, he2, hpli]
        · rw [if_neg hpar, if_neg hpar]
          have h2i : 2 * (i / 2) = i - 1 := by omega
          have h2i1 : 2 * (i / 2) + 1 = i := by omega
          have hiP : i < (padLevel l).length := by omega
          have hi1P : i - 1 < (padLevel l).length := by omega
          have he1 : ((padLevel l)[2 * (i / 2)]) =
              (padLevel l).getD (i - 1) "" := by
            simp only [h2i]
            rw [List.getD_eq_getElem?_getD, List.getElem?_eq_getElem hi1P,
              Option.getD_some]
          have he2 : ((padLevel l)[2 * (i / 2) + 1]) =
              (padLevel l).getD i "" := by
            simp only [h2i1]
            rw [List.getD_eq_getElem?_getD, List.getElem?_eq_getElem hiP,
              Option.getD_some]
          rw [he1, he2, hpli]
      rw [hstep]
      exact ih (combineLevel hs (padLevel l)) (by omega) (i / 2) hi2
/-- C4: for every non-empty list of leaf chunks and every leaf index
`i < leaf_count`, `MerkleTree::verify_proof(root, chunk_i, i, get_proof(i))`
returns `true`, for every leaf count (odd-sized levels duplicate their last
element via `padLevel`); the statement is generic in the two hash
primitives `hd`/`hs`. -/
theorem merkle_proof_roundtrip (hd : List Nat → String)
    (hs : String → String) (chunks : List (List Nat)) (i : Nat)
    (hi : i < chunks.length) (proof : List String)
    (hp : getProof hd hs chunks i = Except.ok proof) :
    verifyProof hd hs (merkleRoot hd hs chunks) (chunks.getD i []) i proof
      = true := by
  have hnle : ¬ chunks.length ≤ i := by omega
  have hp' : proof = getProofAux (buildLevels hs (chunks.map hd)) i := by
    unfold getProof at hp
    rw [if_neg hnle] at hp
    exact (Except.ok.injEq _ _ ▸ hp).symm
  have hleaf : hd (chunks.getD i []) = (chunks.map hd).getD i "" := by
    have him : i < (chunks.map hd).length := by
      rw [List.length_map]; exact hi
    rw [List.getD_eq_getElem?_getD, List.getElem?_eq_getElem hi,
      Option.getD_some, List.getD_eq_getElem?_getD,
      List.getElem?_eq_getElem him, Option.getD_some, List.getElem_map]
  have hmain := merkle_verify_level hs (chunks.map hd).length
    (chunks.map hd) (le_refl _) i (by rw [List.length_map]; exact hi)
  unfold verifyProof merkleRoot
  rw [hp', hleaf]
  unfold buildLevels
  rw [hmain]
  exact beq_self_eq_true _

theorem merkle_proof_roundtrip_witness :
    2 < ([[1], [2], [3]] : List (List Nat)).length ∧
    verifyProof merkleHdW merkleHsW
      (merkleRoot merkleHdW merkleHsW [[1], [2], [3]])
      ([[1], [2], [3]].getD 2 []) 2
      (getProofAux (buildLevels merkleHsW
        ([[1], [2], [3]].map merkleHdW)) 2) = true :=
  ⟨by decide, merkle_proof_roundtrip merkleHdW merkleHsW [[1], [2], [3]] 2
    (by decide) _ (by rfl)⟩

end Omnyxnet
